import Mathlib

/-!
Formal embedding of the LeGO-LOAM-BOR LiDAR odometry front end.

The development shallowly embeds the two translation units of the
repository:

* `imageProjection.cpp` (`ImageProjection`): range-image projection,
  ground removal, BFS segmentation and emission of the segmented cloud;
* `featureAssociation.cpp` (`FeatureAssociation`): feature extraction and
  the scan-to-scan nonlinear solve with degeneracy handling.

Machine floats are modelled by `ℚ`.  Calls into the C math library
(`sin`, `cos`, `asin`, `atan2`, `sqrt`, and the constant `M_PI`) are
modelled by an explicit oracle record `RealOracles`; every theorem that
depends on numeric trigonometry is stated for all oracles, or (for
concrete runs) for an oracle instantiation that agrees with the real
functions at every argument actually evaluated in that run.  A missing
LiDAR return is a cell whose coordinates are the IEEE NaN; this is
modelled by `Option` coordinates, and every float comparison involving a
NaN coordinate evaluates to `false`, exactly as IEEE comparisons do.
-/

namespace LegoLoam

/-- Matrices of the range image are total maps from (row, column) pairs of
machine `int`s, modelled by `ℤ`; cells outside the image are never read
by the embedded loops. -/
abbrev Mat (α : Type) := ℤ → ℤ → α

/-- Single-cell write `M(a, b) = v`, the shallow form of an assignment to
an Eigen/scalar matrix entry. -/
def mupd {α : Type} (M : Mat α) (a b : ℤ) (v : α) : Mat α :=
  fun x y => if x = a ∧ y = b then v else M x y

/-- The exact rational value of `FLT_MAX` (`(2^24 − 1)·2^104`), the fill
value of `_range_mat` in `ImageProjection::resetParameters`. -/
def fltMax : ℚ := (2 ^ 24 - 1) * 2 ^ 104

/-- C cast of a floating value to `int`: truncation toward zero. -/
def truncQ (q : ℚ) : ℤ := if 0 ≤ q then Int.floor q else Int.ceil q

/-- C `round`: rounding half away from zero. -/
def roundQ (q : ℚ) : ℤ := if 0 ≤ q then Int.floor (q + 1/2) else Int.ceil (q - 1/2)

/-- Oracle record standing for the C math library.  Each field is an
arbitrary total rational function; concrete theorems instantiate them
with values that agree with the genuine real-valued functions at the
arguments the embedded run evaluates. -/
structure RealOracles where
  sinQ : ℚ → ℚ
  cosQ : ℚ → ℚ
  asinQ : ℚ → ℚ
  atan2Q : ℚ → ℚ → ℚ
  sqrtQ : ℚ → ℚ
  piQ : ℚ

/-- Configuration constants of `ImageProjection` (from `utility.h` /
runtime parameters).  Trigonometric values that the C++ code computes
once from the angular parameters (`tan(segmentTheta)`,
`sin/cos(segmentAlpha{X,Y})`, `10*DEG_TO_RAD`) are carried as rational
fields. -/
structure IPConfig where
  nScan : ℕ
  hScan : ℕ
  gsi : ℕ
  vpn : ℕ
  vln : ℕ
  thetaTan : ℚ
  sinAX : ℚ
  cosAX : ℚ
  sinAY : ℚ
  cosAY : ℚ
  angResX : ℚ
  angResY : ℚ
  angBottom : ℚ
  sensorMountAngle : ℚ
  tenDegRad : ℚ

/-- A cell of `_full_cloud`.  `coords = none` models the NaN point that
`resetParameters` writes into every cell; note that `resetParameters`
sets only `x`, `y`, `z` of `nanPoint`, so the `intensity` field keeps the
PCL `PointXYZI` default-constructor value `0`. -/
structure CellPt where
  coords : Option (ℚ × ℚ × ℚ)
  intensity : ℚ
deriving DecidableEq

/-- A point of the incoming cloud message; `finite = false` marks the
points that `pcl::removeNaNFromPointCloud` drops. -/
structure RawPt where
  x : ℚ
  y : ℚ
  z : ℚ
  intensity : ℚ
  finite : Bool
deriving DecidableEq

/-- The per-scan mutable state of `ImageProjection` that the embedded
phases read and write. -/
structure IPState where
  fullCloud : Mat CellPt
  rangeM : Mat ℚ
  groundM : Mat ℤ
  labM : Mat ℤ

/-- `ImageProjection::resetParameters`: `_range_mat` filled with
`FLT_MAX`, `_ground_mat` and `_label_mat` zeroed, `_full_cloud` filled
with the NaN point (whose `intensity` stays at the PCL default `0`). -/
def resetParametersE : IPState :=
  { fullCloud := fun _ _ => ⟨none, 0⟩
    rangeM := fun _ _ => fltMax
    groundM := fun _ _ => 0
    labM := fun _ _ => 0 }

/-- The column adjustment of `projectPointCloud`
(`if (columnIdn >= H) columnIdn -= H;`). -/
def wrapCol (cfg : IPConfig) (c0 : ℤ) : ℤ :=
  if (cfg.hScan : ℤ) ≤ c0 then c0 - cfg.hScan else c0

/-- Body of the loop of `ImageProjection::projectPointCloud` for one
input point: compute range, row and column, apply the guards, then store
the range and the tagged point. -/
def projectOneE (O : RealOracles) (cfg : IPConfig) (st : IPState) (p : RawPt) : IPState :=
  let range := O.sqrtQ (p.x * p.x + p.y * p.y + p.z * p.z)
  let verticalAngle := O.asinQ (p.z / range)
  let rowIdn : ℤ := truncQ ((verticalAngle + cfg.angBottom) / cfg.angResY)
  if rowIdn < 0 ∨ (cfg.nScan : ℤ) ≤ rowIdn then st else
  let horizonAngle := O.atan2Q p.x p.y
  let columnIdn : ℤ := wrapCol cfg (truncQ (-(roundQ ((horizonAngle - O.piQ / 2) / cfg.angResX) : ℚ)
      + (cfg.hScan : ℚ) * (1/2)))
  if columnIdn < 0 ∨ (cfg.hScan : ℤ) ≤ columnIdn then st else
  if range < 1/10 then st else
  { st with
    rangeM := mupd st.rangeM rowIdn columnIdn range
    fullCloud := mupd st.fullCloud rowIdn columnIdn
      ⟨some (p.x, p.y, p.z), (rowIdn : ℚ) + (columnIdn : ℚ) / 10000⟩ }

/-- `ImageProjection::projectPointCloud`: fold the per-point body over
the (NaN-cleaned) input cloud.  The `_full_info_cloud` copy is not
modelled: no embedded claim reads it. -/
def projectPointCloudE (O : RealOracles) (cfg : IPConfig) (st : IPState)
    (cloud : List RawPt) : IPState :=
  cloud.foldl (projectOneE O cfg) st

/-- The vertical-angle test of `ImageProjection::groundRemoval`
(`atan2(dZ, sqrt(dX²+dY²+dZ²)) − sensorMountAngle ≤ 10°`).  If either
point has NaN coordinates the difference components are NaN, the angle
is NaN, and the IEEE comparison is `false`. -/
def groundAngleTestE (O : RealOracles) (cfg : IPConfig) (lower upper : CellPt) : Bool :=
  match lower.coords, upper.coords with
  | some (lx, ly, lz), some (ux, uy, uz) =>
    let dX := ux - lx
    let dY := uy - ly
    let dZ := uz - lz
    let verticalAngle := O.atan2Q dZ (O.sqrtQ (dX * dX + dY * dY + dZ * dZ))
    decide (verticalAngle - cfg.sensorMountAngle ≤ cfg.tenDegRad)
  | _, _ => false

/-- Body of the pair loop of `ImageProjection::groundRemoval` at row `i`,
column `j`: the `intensity == -1` invalid-pair check, then the angle
test marking both cells as ground. -/
def groundPairE (O : RealOracles) (cfg : IPConfig) (st : IPState) (i j : ℤ) : IPState :=
  let lower := st.fullCloud i j
  let upper := st.fullCloud (i + 1) j
  if lower.intensity = -1 ∨ upper.intensity = -1 then
    { st with groundM := mupd st.groundM i j (-1) }
  else if groundAngleTestE O cfg lower upper then
    { st with groundM := mupd (mupd st.groundM i j 1) (i + 1) j 1 }
  else st

/-- `ImageProjection::groundRemoval`: the column-major pair loop over
`j ∈ [0, horizontal_scan)`, `i ∈ [0, groundScanInd)`, then the pass that
marks `_label_mat = -1` wherever the cell is ground or has no return
(the pointwise form of the second loop; `_ground_cloud` extraction is
not modelled, nothing downstream reads it). -/
def groundRemovalE (O : RealOracles) (cfg : IPConfig) (st : IPState) : IPState :=
  let st1 := (List.range cfg.hScan).foldl
    (fun s (j : ℕ) => (List.range cfg.gsi).foldl
      (fun s' (i : ℕ) => groundPairE O cfg s' (i : ℤ) (j : ℤ)) s) st
  { st1 with labM := fun a b =>
      if (0 ≤ a ∧ a < (cfg.nScan : ℤ) ∧ 0 ≤ b ∧ b < (cfg.hScan : ℤ)) ∧
         (st1.groundM a b = 1 ∨ st1.rangeM a b = fltMax) then -1
      else st1.labM a b }

/-! ### BFS segmentation (`ImageProjection::labelComponents`) -/

/-- State of one BFS cluster growth: the label matrix, the
`lineCountFlag` vector, the FIFO `queue` and the `all_pushed` trace. -/
structure BfsSt where
  lab : Mat ℤ
  flags : ℤ → Bool
  queue : List (ℤ × ℤ)
  ap : List (ℤ × ℤ)

/-- The four 4-connected neighbor offsets of `labelComponents`, in
source order. -/
def neighborDirs : List (ℤ × ℤ) := [(0, -1), (-1, 0), (1, 0), (0, 1)]

/-- The geometric join test of `labelComponents`:
`d2·sin α / (d1 − d2·cos α) > tan(segmentTheta)`, where `α` is
`segmentAlphaX` for a horizontal step and `segmentAlphaY` for a vertical
one. -/
def joinTestE (cfg : IPConfig) (rfrom rto : ℚ) (vertical : Bool) : Bool :=
  let d1 := max rfrom rto
  let d2 := min rfrom rto
  let sA := if vertical then cfg.sinAY else cfg.sinAX
  let cA := if vertical then cfg.cosAY else cfg.cosAX
  decide (cfg.thetaTan < d2 * sA / (d1 - d2 * cA))

/-- The sequential column wrap of `labelComponents`
(`if (thisIndY < 0) thisIndY = H−1; if (thisIndY >= H) thisIndY = 0;`). -/
def wrapY (cfg : IPConfig) (y0 : ℤ) : ℤ :=
  let y1 := if y0 < 0 then (cfg.hScan : ℤ) - 1 else y0
  if (cfg.hScan : ℤ) ≤ y1 then 0 else y1

/-- One neighbor visit of the BFS: bounds check on the row, sequential
column wrap, skip of already-labelled cells, then the join test with
label, flag, queue and `all_pushed` updates. -/
def nstepE (cfg : IPConfig) (rng : Mat ℚ) (lc : ℤ) (frm : ℤ × ℤ)
    (s : BfsSt) (d : ℤ × ℤ) : BfsSt :=
  let x := frm.1 + d.1
  if x < 0 ∨ (cfg.nScan : ℤ) ≤ x then s else
  let y := wrapY cfg (frm.2 + d.2)
  if s.lab x y ≠ 0 then s else
  if joinTestE cfg (rng frm.1 frm.2) (rng x y) (d.1 ≠ 0) then
    { lab := mupd s.lab x y lc
      flags := fun r => if r = x then true else s.flags r
      queue := s.queue ++ [(x, y)]
      ap := s.ap ++ [(x, y)] }
  else s

/-- One iteration of the BFS loop: pop the front of the queue, label it
with the current cluster id, and visit its four neighbors. -/
def popStepE (cfg : IPConfig) (rng : Mat ℚ) (lc : ℤ) (c : ℤ × ℤ)
    (rest : List (ℤ × ℤ)) (s : BfsSt) : BfsSt :=
  neighborDirs.foldl (nstepE cfg rng lc c)
    { s with queue := rest, lab := mupd s.lab c.1 c.2 lc }

/-- The fueled BFS loop.  The fuel `2·N_scan·horizontal_scan + 2` used
below is provably sufficient (`bfsRunE_complete`): every iteration
strictly decreases `2·(number of zero-labelled image cells) + |queue|`. -/
def bfsRunE (cfg : IPConfig) (rng : Mat ℚ) (lc : ℤ) : ℕ → BfsSt → BfsSt
  | 0, s => s
  | fuel + 1, s =>
    match s.queue with
    | [] => s
    | c :: rest => bfsRunE cfg rng lc fuel (popStepE cfg rng lc c rest s)

/-- Number of rows whose `lineCountFlag` is set, as counted by the
validation loop of `labelComponents`. -/
def lineCountE (cfg : IPConfig) (flags : ℤ → Bool) : ℕ :=
  ((List.range cfg.nScan).filter (fun (i : ℕ) => flags (i : ℤ))).length

/-- The standard fuel for one cluster growth. -/
def stdFuel (cfg : IPConfig) : ℕ := 2 * cfg.nScan * cfg.hScan + 2

/-- State threaded through `cloudSegmentation`: the label matrix and the
running `_label_count`. -/
structure SegSt where
  labM : Mat ℤ
  labelCount : ℤ

/-- The cluster validation test of `labelComponents`: `size ≥ 30`, or
`size ≥ segmentValidPointNum` and at least `segmentValidLineNum` flagged
lines. -/
def feasibleSeg (cfg : IPConfig) (r : BfsSt) : Bool :=
  if 30 ≤ r.ap.length then true
  else if cfg.vpn ≤ r.ap.length then decide (cfg.vln ≤ lineCountE cfg r.flags)
  else false

/-- `ImageProjection::labelComponents`: grow the BFS cluster from the
seed, validate it, then either keep the labels and advance
`_label_count`, or overwrite every pushed cell with `999999`. -/
def labelComponentsE (cfg : IPConfig) (rng : Mat ℚ) (st : SegSt)
    (row col : ℤ) : SegSt :=
  let r := bfsRunE cfg rng st.labelCount (stdFuel cfg)
    ⟨st.labM, fun _ => false, [(row, col)], [(row, col)]⟩
  if feasibleSeg cfg r then ⟨r.lab, st.labelCount + 1⟩
  else ⟨r.ap.foldl (fun L c => mupd L c.1 c.2 999999) r.lab, st.labelCount⟩

/-- The cells of one image row, in column order. -/
def rowOf (cfg : IPConfig) (i : ℕ) : List (ℤ × ℤ) :=
  (List.range cfg.hScan).map (fun (j : ℕ) => ((i : ℤ), (j : ℤ)))

/-- Row-major enumeration of the image cells, the iteration order of the
two loops at the head of `cloudSegmentation`. -/
def rowMajor (cfg : IPConfig) : List (ℤ × ℤ) :=
  (List.range cfg.nScan).foldr (fun i acc => rowOf cfg i ++ acc) []

/-- The segmentation pass of `ImageProjection::cloudSegmentation`: call
`labelComponents` on every still-unlabelled cell, in row-major order,
starting from `_label_count = 1`. -/
def segLoopE (cfg : IPConfig) (rng : Mat ℚ) (L0 : Mat ℤ) : SegSt :=
  (rowMajor cfg).foldl
    (fun st c => if st.labM c.1 c.2 = 0 then labelComponentsE cfg rng st c.1 c.2 else st)
    ⟨L0, 1⟩

/-! ### Emission of the segmented cloud (`cloudSegmentation`, second half) -/

/-- Accumulated emission state: `size` is `sizeOfSegCloud`; the ring
index lists collect `startRingIndex[i]` / `endRingIndex[i]`; `emitted`
records, per ring, how many points that ring contributed; `outliers`
counts outlier-cloud pushes. -/
structure EmSt where
  size : ℕ
  starts : List ℤ
  ends : List ℤ
  emitted : List ℕ
  outliers : ℕ

/-- One column step of the emission loop: the `label > 0 ∨ ground == 1`
gate, the `999999` outlier filter, and the ground subsampling filter
(`j % 5 ≠ 0 ∧ 5 < j ∧ j < horizontal_scan − 5`). -/
def emitCellE (cfg : IPConfig) (lab ground : Mat ℤ) (i : ℤ) (sz : ℕ × ℕ) (j : ℤ) : ℕ × ℕ :=
  if 0 < lab i j ∨ ground i j = 1 then
    if lab i j = 999999 then
      if (cfg.gsi : ℤ) < i ∧ j % 5 = 0 then (sz.1, sz.2 + 1) else sz
    else if ground i j = 1 ∧ (j % 5 ≠ 0 ∧ 5 < j ∧ j < (cfg.hScan : ℤ) - 5) then sz
    else (sz.1 + 1, sz.2)
  else sz

/-- One ring of the emission loop: record
`startRingIndex[i] = sizeOfSegCloud − 1 + 5`, emit the ring's columns,
record `endRingIndex[i] = sizeOfSegCloud − 1 − 5`. -/
def emitRingE (cfg : IPConfig) (lab ground : Mat ℤ) (st : EmSt) (i : ℤ) : EmSt :=
  let s0 := st.size
  let p := (List.range cfg.hScan).foldl
    (fun sz (j : ℕ) => emitCellE cfg lab ground i sz (j : ℤ)) (s0, st.outliers)
  { size := p.1
    starts := st.starts ++ [(s0 : ℤ) - 1 + 5]
    ends := st.ends ++ [(p.1 : ℤ) - 1 - 5]
    emitted := st.emitted ++ [p.1 - s0]
    outliers := p.2 }

/-- The emission half of `cloudSegmentation`, over all rings. -/
def emitAllE (cfg : IPConfig) (lab ground : Mat ℤ) : EmSt :=
  (List.range cfg.nScan).foldl
    (fun st (i : ℕ) => emitRingE cfg lab ground st (i : ℤ)) ⟨0, [], [], [], 0⟩

/-- The quantity `Σ_i (endRingIndex[i] − startRingIndex[i] + 11)` of the
spec's segmented-cloud size invariant. -/
def sumWindows : List ℤ → List ℤ → ℤ
  | s :: ss, e :: es => (e - s + 11) + sumWindows ss es
  | _, _ => 0

/-! ### Start/end orientation and the cloud handler (`findStartEndAngle`,
`cloudHandler`) -/

/-- `ImageProjection::findStartEndAngle`, made total with `Option`:
`points.front()` / `points.back()` on an empty vector is undefined
behaviour in the C++ code, modelled by `none`. -/
def findStartEndAngleE (O : RealOracles) (cloud : List RawPt) : Option (ℚ × ℚ × ℚ) :=
  match cloud.head?, cloud.getLast? with
  | some pf, some pl =>
    let startOrientation := -O.atan2Q pf.y pf.x
    let e0 := -O.atan2Q pl.y pl.x + 2 * O.piQ
    let endOrientation :=
      if 3 * O.piQ < e0 - startOrientation then e0 - 2 * O.piQ
      else if e0 - startOrientation < O.piQ then e0 + 2 * O.piQ
      else e0
    some (startOrientation, endOrientation, endOrientation - startOrientation)
  | _, _ => none

/-- Result bundle of one embedded `cloudHandler` run. -/
structure IPOut where
  angles : ℚ × ℚ × ℚ
  state : IPState
  seg : SegSt
  em : EmSt

/-- `ImageProjection::cloudHandler`: reset, NaN removal, then
unconditionally `findStartEndAngle`, projection, ground removal,
segmentation and emission.  The unguarded `front()/back()` access makes
the result `none` exactly when the cloud is empty after NaN removal. -/
def cloudHandlerE (O : RealOracles) (cfg : IPConfig) (raw : List RawPt) : Option IPOut :=
  let cleaned := raw.filter (fun p => p.finite)
  match findStartEndAngleE O cleaned with
  | none => none
  | some angles =>
    let st1 := projectPointCloudE O cfg resetParametersE cleaned
    let st2 := groundRemovalE O cfg st1
    let seg := segLoopE cfg st2.rangeM st2.labM
    some ⟨angles, st2, seg, emitAllE cfg seg.labM st2.groundM⟩

/-! ### Degeneracy detection (`calculateTransformationSurf` /
`calculateTransformationCorner`, iteration 0)

`Eigen::SelfAdjointEigenSolver` returns the eigenvalues of `AᵀA`
sorted in *increasing* order; the scan below is the literal loop
`for (i = n−1; i ≥ 0; i--) { if (matE(0,i) < 10) zero row i, set
isDegenerate; else break; }` with `eignThre` all `10`. -/

/-- The eigenvalue scan over a descending index list: returns
`isDegenerate` together with the set of zeroed eigenvector rows. -/
def degenGo (e : ℕ → ℚ) : List ℕ → Bool × (ℕ → Bool)
  | [] => (false, fun _ => false)
  | i :: rest =>
    if e i < 10 then
      let r := degenGo e rest
      (true, fun k => if k = i then true else r.2 k)
    else (false, fun _ => false)

/-- The 3×3 scan of the surface and corner solvers (`i = 2, 1, 0`). -/
def degenScan3 (e : ℕ → ℚ) : Bool × (ℕ → Bool) := degenGo e [2, 1, 0]

/-- 3-vectors and 3×3 matrices of the reduced solvers. -/
abbrev Vec3 := Fin 3 → ℚ

abbrev Mat3 := Fin 3 → Fin 3 → ℚ

def mat3MulVec (M : Mat3) (v : Vec3) : Vec3 :=
  fun i => ∑ k, M i k * v k

def mat3Mul (M N : Mat3) : Mat3 :=
  fun i j => ∑ k, M i k * N k j

def det3 (M : Mat3) : ℚ :=
  M 0 0 * (M 1 1 * M 2 2 - M 1 2 * M 2 1) -
  M 0 1 * (M 1 0 * M 2 2 - M 1 2 * M 2 0) +
  M 0 2 * (M 1 0 * M 2 1 - M 1 1 * M 2 0)

/-- The two indices of `Fin 3` other than the given one, ascending. -/
def othersF : Fin 3 → Fin 3 × Fin 3
  | 0 => (1, 2)
  | 1 => (0, 2)
  | 2 => (0, 1)

def mat3Cof (M : Mat3) (r c : Fin 3) : ℚ :=
  let pr := othersF r
  let pc := othersF c
  (-1 : ℚ) ^ ((r : ℕ) + (c : ℕ)) *
    (M pr.1 pc.1 * M pr.2 pc.2 - M pr.1 pc.2 * M pr.2 pc.1)

/-- Explicit adjugate inverse of a 3×3 matrix (`Eigen .inverse()`). -/
def mat3Inv (M : Mat3) : Mat3 :=
  fun i j => mat3Cof M j i / det3 M

/-- The degeneracy tail of `calculateTransformationSurf` (lines
1156–1185) operating on the least-squares solution `matX`.  `eigE` /
`eigV` stand for `esolver.eigenvalues()` / `.eigenvectors()` of the
iteration-0 `AᵀA`.  Crucially, `matP` is a *local* variable of the C++
function: on calls with `iterCount ≥ 1` it is a freshly
default-constructed (hence uninitialized) `Eigen::Matrix<float,3,3>`,
modelled by the explicit argument `uninitP`. -/
def calcApplyDegenE (eigE : ℕ → ℚ) (eigV : Mat3) (uninitP : Mat3)
    (iterCount : ℕ) (deg : Bool) (x : Vec3) : Vec3 × Bool :=
  if iterCount = 0 then
    let scan := degenScan3 eigE
    let v2 : Mat3 := fun i j => if scan.2 (i : ℕ) then 0 else eigV i j
    let p := mat3Mul (mat3Inv eigV) v2
    (if scan.1 then mat3MulVec p x else x, scan.1)
  else
    (if deg then mat3MulVec uninitP x else x, deg)

/-! ### Feature extraction (`FeatureAssociation::extractFeatures`),
one ring-sector -/

/-- Read-only per-scan context of one sector walk: curvatures, ground
flags, column indices, the length of `segmentedCloudColInd`
(`N_scan·horizontal_scan`), and the two thresholds. -/
structure FeatCtx where
  curv : ℕ → ℚ
  groundFlag : ℕ → Bool
  colInd : ℕ → ℤ
  colSize : ℕ
  edgeThr : ℚ
  surfThr : ℚ

def setP (p : ℕ → Bool) (k : ℕ) : ℕ → Bool := fun x => if x = k then true else p x

def setL (lb : ℕ → ℤ) (k : ℕ) (v : ℤ) : ℕ → ℤ := fun x => if x = k then v else lb x

/-- Forward neighbor suppression (`for l = 1..5`): skip when the index
leaves the array, break on a column jump `> 10`, else mark picked. -/
def markFwd (ctx : FeatCtx) (ind : ℕ) : List ℕ → (ℕ → Bool) → (ℕ → Bool)
  | [], p => p
  | l :: rest, p =>
    if ctx.colSize ≤ ind + l then markFwd ctx ind rest p
    else if 10 < |ctx.colInd (ind + l) - ctx.colInd (ind + l - 1)| then p
    else markFwd ctx ind rest (setP p (ind + l))

/-- Backward neighbor suppression (`for l = -1..-5`), with `l` carried
positively. -/
def markBwd (ctx : FeatCtx) (ind : ℕ) : List ℕ → (ℕ → Bool) → (ℕ → Bool)
  | [], p => p
  | l :: rest, p =>
    if ind < l then markBwd ctx ind rest p
    else if 10 < |ctx.colInd (ind - l) - ctx.colInd (ind - l + 1)| then p
    else markBwd ctx ind rest (setP p (ind - l))

/-- Neighbor suppression of one accepted feature: mark the point itself,
then the forward and backward stretches. -/
def markPickedE (ctx : FeatCtx) (p : ℕ → Bool) (ind : ℕ) : ℕ → Bool :=
  markBwd ctx ind [1, 2, 3, 4, 5] (markFwd ctx ind [1, 2, 3, 4, 5] (setP p ind))

/-- State of the corner walk of one sector: picked flags, labels, the
`largestPickedNum` counter, and the two emission traces. -/
structure CornerSt where
  picked : ℕ → Bool
  lab : ℕ → ℤ
  n : ℕ
  sharp : List ℕ
  less : List ℕ

/-- The corner walk (`for k = ep; k ≥ sp; k--`): the candidate list is
`[cloudSmoothness[k].ind | k = ep … sp]` in descending-curvature order.
First 2 accepted go to both sharp buffers with label 2, the next up to
20 to the less-sharp buffer with label 1, then `break`. -/
def cornerWalkE (ctx : FeatCtx) : List ℕ → CornerSt → CornerSt
  | [], s => s
  | ind :: rest, s =>
    if s.picked ind = false ∧ ctx.edgeThr < ctx.curv ind ∧ ctx.groundFlag ind = false then
      let n' := s.n + 1
      if n' ≤ 2 then
        let s' : CornerSt :=
          { picked := markPickedE ctx s.picked ind
            lab := setL s.lab ind 2
            n := n'
            sharp := s.sharp ++ [ind]
            less := s.less ++ [ind] }
        cornerWalkE ctx rest s'
      else if n' ≤ 20 then
        let s' : CornerSt :=
          { picked := markPickedE ctx s.picked ind
            lab := setL s.lab ind 1
            n := n'
            sharp := s.sharp
            less := s.less ++ [ind] }
        cornerWalkE ctx rest s'
      else s
    else cornerWalkE ctx rest s

/-- State of the surface walk of one sector. -/
structure SurfSt where
  picked : ℕ → Bool
  lab : ℕ → ℤ
  n : ℕ
  flat : List ℕ

/-- The surface walk (`for k = sp; k ≤ ep; k++`), ascending curvature:
accept ground points below the surf threshold, label −1, push, and
`break` once `smallestPickedNum ≥ 4` (the fourth push happens before
the break, and its neighbor suppression is skipped). -/
def surfWalkE (ctx : FeatCtx) : List ℕ → SurfSt → SurfSt
  | [], s => s
  | ind :: rest, s =>
    if s.picked ind = false ∧ ctx.curv ind < ctx.surfThr ∧ ctx.groundFlag ind = true then
      let s1 : SurfSt :=
        { s with lab := setL s.lab ind (-1), flat := s.flat ++ [ind], n := s.n + 1 }
      if 4 ≤ s1.n then s1
      else surfWalkE ctx rest { s1 with picked := markPickedE ctx s1.picked ind }
    else surfWalkE ctx rest s

/-- Fresh sector state: the buckets receive only this sector's pushes. -/
def cornerStart (picked : ℕ → Bool) (lab : ℕ → ℤ) : CornerSt :=
  ⟨picked, lab, 0, [], []⟩

def surfStart (picked : ℕ → Bool) (lab : ℕ → ℤ) : SurfSt :=
  ⟨picked, lab, 0, []⟩

/-! ### The per-scan odometry cycle (`runFeatureAssociation`, lines
1704–1737) -/

/-- The fields of `FeatureAssociation` that the association branch of
the per-scan cycle reads or writes.  Feature clouds are tracked by their
sizes (`laserCloudCornerLastNum` …); `odomLog` records the positions
successively published by `publishOdometry`
(`transformSum[3], transformSum[4], transformSum[5]`). -/
structure FAState where
  inited : Bool
  transformCur : ℕ → ℚ
  transformSum : ℕ → ℚ
  imuRollStart : ℚ
  imuPitchStart : ℚ
  imuYawStart : ℚ
  imuRollCur : ℚ
  imuPitchCur : ℚ
  imuYawCur : ℚ
  imuRollLast : ℚ
  imuPitchLast : ℚ
  imuYawLast : ℚ
  imuShiftFromStart : ℚ × ℚ × ℚ
  imuVeloFromStart : ℚ × ℚ × ℚ
  imuShiftFromStartCur : ℚ × ℚ × ℚ
  imuVeloFromStartCur : ℚ × ℚ × ℚ
  imuAngularFromStart : ℚ × ℚ × ℚ
  cornerLastNum : ℕ
  surfLastNum : ℕ
  lessSharpNum : ℕ
  lessFlatNum : ℕ
  frameCount : ℕ
  skipFrameNum : ℕ
  isDeg : Bool
  odomLog : List (ℚ × ℚ × ℚ)

/-- `FeatureAssociation::AccumulateRotation`: the closed-form 3-2-1
Euler composition of `(cx,cy,cz)` with `(lx,ly,lz)`. -/
def AccumulateRotationE (O : RealOracles) (cx cy cz lx ly lz : ℚ) : ℚ × ℚ × ℚ :=
  let srx := O.cosQ lx * O.cosQ cx * O.sinQ ly * O.sinQ cz -
      O.cosQ cx * O.cosQ cz * O.sinQ lx - O.cosQ lx * O.cosQ ly * O.sinQ cx
  let ox := -O.asinQ srx
  let srycrx := O.sinQ lx * (O.cosQ cy * O.sinQ cz - O.cosQ cz * O.sinQ cx * O.sinQ cy) +
      O.cosQ lx * O.sinQ ly * (O.cosQ cy * O.cosQ cz + O.sinQ cx * O.sinQ cy * O.sinQ cz) +
      O.cosQ lx * O.cosQ ly * O.cosQ cx * O.sinQ cy
  let crycrx := O.cosQ lx * O.cosQ ly * O.cosQ cx * O.cosQ cy -
      O.cosQ lx * O.sinQ ly * (O.cosQ cz * O.sinQ cy - O.cosQ cy * O.sinQ cx * O.sinQ cz) -
      O.sinQ lx * (O.sinQ cy * O.sinQ cz + O.cosQ cy * O.cosQ cz * O.sinQ cx)
  let oy := O.atan2Q (srycrx / O.cosQ ox) (crycrx / O.cosQ ox)
  let srzcrx := O.sinQ cx * (O.cosQ lz * O.sinQ ly - O.cosQ ly * O.sinQ lx * O.sinQ lz) +
      O.cosQ cx * O.sinQ cz * (O.cosQ ly * O.cosQ lz + O.sinQ lx * O.sinQ ly * O.sinQ lz) +
      O.cosQ lx * O.cosQ cx * O.cosQ cz * O.sinQ lz
  let crzcrx := O.cosQ lx * O.cosQ lz * O.cosQ cx * O.cosQ cz -
      O.cosQ cx * O.sinQ cz * (O.cosQ ly * O.sinQ lz - O.cosQ lz * O.sinQ lx * O.sinQ ly) -
      O.sinQ cx * (O.sinQ ly * O.sinQ lz + O.cosQ ly * O.cosQ lz * O.sinQ lx)
  let oz := O.atan2Q (srzcrx / O.cosQ ox) (crzcrx / O.cosQ ox)
  (ox, oy, oz)

/-- `FeatureAssociation::PluginIMURotation`: folds the IMU start/end
rotation delta into the accumulated rotation. -/
def PluginIMURotationE (O : RealOracles) (bcx bcy bcz blx bly blz alx aly alz : ℚ) :
    ℚ × ℚ × ℚ :=
  let sbcx := O.sinQ bcx
  let cbcx := O.cosQ bcx
  let sbcy := O.sinQ bcy
  let cbcy := O.cosQ bcy
  let sbcz := O.sinQ bcz
  let cbcz := O.cosQ bcz
  let sblx := O.sinQ blx
  let cblx := O.cosQ blx
  let sbly := O.sinQ bly
  let cbly := O.cosQ bly
  let sblz := O.sinQ blz
  let cblz := O.cosQ blz
  let salx := O.sinQ alx
  let calx := O.cosQ alx
  let saly := O.sinQ aly
  let caly := O.cosQ aly
  let salz := O.sinQ alz
  let calz := O.cosQ alz
  let srx := -sbcx * (salx * sblx + calx * caly * cblx * cbly + calx * cblx * saly * sbly) -
      cbcx * cbcz * (calx * saly * (cbly * sblz - cblz * sblx * sbly) -
        calx * caly * (sbly * sblz + cbly * cblz * sblx) + cblx * cblz * salx) -
      cbcx * sbcz * (calx * caly * (cblz * sbly - cbly * sblx * sblz) -
        calx * saly * (cbly * cblz + sblx * sbly * sblz) + cblx * salx * sblz)
  let acx := -O.asinQ srx
  let srycrx := (cbcy * sbcz - cbcz * sbcx * sbcy) *
        (calx * saly * (cbly * sblz - cblz * sblx * sbly) -
          calx * caly * (sbly * sblz + cbly * cblz * sblx) + cblx * cblz * salx) -
      (cbcy * cbcz + sbcx * sbcy * sbcz) *
        (calx * caly * (cblz * sbly - cbly * sblx * sblz) -
          calx * saly * (cbly * cblz + sblx * sbly * sblz) + cblx * salx * sblz) +
      cbcx * sbcy * (salx * sblx + calx * caly * cblx * cbly + calx * cblx * saly * sbly)
  let crycrx := (cbcz * sbcy - cbcy * sbcx * sbcz) *
        (calx * caly * (cblz * sbly - cbly * sblx * sblz) -
          calx * saly * (cbly * cblz + sblx * sbly * sblz) + cblx * salx * sblz) -
      (sbcy * sbcz + cbcy * cbcz * sbcx) *
        (calx * saly * (cbly * sblz - cblz * sblx * sbly) -
          calx * caly * (sbly * sblz + cbly * cblz * sblx) + cblx * cblz * salx) +
      cbcx * cbcy * (salx * sblx + calx * caly * cblx * cbly + calx * cblx * saly * sbly)
  let acy := O.atan2Q (srycrx / O.cosQ acx) (crycrx / O.cosQ acx)
  let srzcrx := sbcx * (cblx * cbly * (calz * saly - caly * salx * salz) -
        cblx * sbly * (caly * calz + salx * saly * salz) + calx * salz * sblx) -
      cbcx * cbcz * ((caly * calz + salx * saly * salz) * (cbly * sblz - cblz * sblx * sbly) +
        (calz * saly - caly * salx * salz) * (sbly * sblz + cbly * cblz * sblx) -
        calx * cblx * cblz * salz) +
      cbcx * sbcz * ((caly * calz + salx * saly * salz) * (cbly * cblz + sblx * sbly * sblz) +
        (calz * saly - caly * salx * salz) * (cblz * sbly - cbly * sblx * sblz) +
        calx * cblx * salz * sblz)
  let crzcrx := sbcx * (cblx * sbly * (caly * salz - calz * salx * saly) -
        cblx * cbly * (saly * salz + caly * calz * salx) + calx * calz * sblx) +
      cbcx * cbcz * ((saly * salz + caly * calz * salx) * (sbly * sblz + cbly * cblz * sblx) +
        (caly * salz - calz * salx * saly) * (cbly * sblz - cblz * sblx * sbly) +
        calx * calz * cblx * cblz) -
      cbcx * sbcz * ((saly * salz + caly * calz * salx) * (cblz * sbly - cbly * sblx * sblz) +
        (caly * salz - calz * salx * saly) * (cbly * cblz + sblx * sbly * sblz) -
        calx * calz * cblx * sblz)
  let acz := O.atan2Q (srzcrx / O.cosQ acx) (crzcrx / O.cosQ acx)
  (acx, acy, acz)

/-- `FeatureAssociation::integrateTransformation`: compose the per-scan
increment `transformCur` into the global `transformSum`, with the IMU
shift correction and `PluginIMURotation`. -/
def integrateTransformationE (O : RealOracles) (s : FAState) : FAState :=
  let acc := AccumulateRotationE O (s.transformSum 0) (s.transformSum 1) (s.transformSum 2)
    (-(s.transformCur 0)) (-(s.transformCur 1)) (-(s.transformCur 2))
  let rx := acc.1
  let ry := acc.2.1
  let rz := acc.2.2
  let x1 := O.cosQ rz * (s.transformCur 3 - s.imuShiftFromStart.1) -
      O.sinQ rz * (s.transformCur 4 - s.imuShiftFromStart.2.1)
  let y1 := O.sinQ rz * (s.transformCur 3 - s.imuShiftFromStart.1) +
      O.cosQ rz * (s.transformCur 4 - s.imuShiftFromStart.2.1)
  let z1 := s.transformCur 5 - s.imuShiftFromStart.2.2
  let x2 := x1
  let y2 := O.cosQ rx * y1 - O.sinQ rx * z1
  let z2 := O.sinQ rx * y1 + O.cosQ rx * z1
  let tx := s.transformSum 3 - (O.cosQ ry * x2 + O.sinQ ry * z2)
  let ty := s.transformSum 4 - y2
  let tz := s.transformSum 5 - (-(O.sinQ ry) * x2 + O.cosQ ry * z2)
  let plug := PluginIMURotationE O rx ry rz s.imuPitchStart s.imuYawStart s.imuRollStart
    s.imuPitchLast s.imuYawLast s.imuRollLast
  { s with transformSum := fun i =>
      if i = 0 then plug.1 else if i = 1 then plug.2.1 else if i = 2 then plug.2.2
      else if i = 3 then tx else if i = 4 then ty else if i = 5 then tz
      else s.transformSum i }

/-- `FeatureAssociation::updateInitialGuess`: roll the `Cur` IMU values
into the `Last` slots and seed `transformCur` from the IMU angular and
velocity deltas when they are nonzero. -/
def updateInitialGuessE (scanPeriod : ℚ) (s : FAState) : FAState :=
  let s1 := { s with
    imuPitchLast := s.imuPitchCur
    imuYawLast := s.imuYawCur
    imuRollLast := s.imuRollCur
    imuShiftFromStart := s.imuShiftFromStartCur
    imuVeloFromStart := s.imuVeloFromStartCur }
  let a := s1.imuAngularFromStart
  let s2 :=
    if a.1 ≠ 0 ∨ a.2.1 ≠ 0 ∨ a.2.2 ≠ 0 then
      { s1 with transformCur := fun i =>
          if i = 0 then -a.2.1 else if i = 1 then -a.2.2 else if i = 2 then -a.1
          else s1.transformCur i }
    else s1
  let v := s2.imuVeloFromStart
  if v.1 ≠ 0 ∨ v.2.1 ≠ 0 ∨ v.2.2 ≠ 0 then
    { s2 with transformCur := fun i =>
        if i = 3 then s2.transformCur 3 - v.1 * scanPeriod
        else if i = 4 then s2.transformCur 4 - v.2.1 * scanPeriod
        else if i = 5 then s2.transformCur 5 - v.2.2 * scanPeriod
        else s2.transformCur i }
  else s2

/-- Oracle summary of one solver iteration
(`calculateTransformationSurf` or `…Corner`): from the iteration index,
`transformCur` and `isDegenerate` produce the updated pair and the
returned continue flag.  The C++ functions read and write no other
`FeatureAssociation` state (source lines 1080–1203, 1205–1309). -/
abbrev CalcOracle := ℕ → (ℕ → ℚ) → Bool → ((ℕ → ℚ) × Bool) × Bool

/-- One of the two 25-iteration solver loops of `updateTransformation`:
an iteration with fewer than 10 residuals (`nRes`, the size of
`laserCloudOri` filled by the correspondence search, which touches no
field modelled here) is skipped (`continue`), and a `false` return of
the calculation breaks the loop; the `Bool` component of the
accumulator records that the loop was left by `break`. -/
def solveLoopE (nRes : ℕ → ℕ) (cal : CalcOracle) (st : FAState) : FAState :=
  ((List.range 25).foldl
    (fun p it =>
      if p.2 then p
      else if nRes it < 10 then (p.1, false)
      else
        let r := cal it p.1.transformCur p.1.isDeg
        ({ p.1 with transformCur := r.1.1, isDeg := r.1.2 }, r.2 = false))
    (st, false)).1

/-- `FeatureAssociation::updateTransformation`: the sparse-scan early
return, then the surface loop followed by the corner loop. -/
def updateTransformationE (nSurf : ℕ → ℕ) (calcS : CalcOracle)
    (nCorner : ℕ → ℕ) (calcC : CalcOracle) (s : FAState) : FAState :=
  if s.cornerLastNum < 10 ∨ s.surfLastNum < 100 then s
  else solveLoopE nCorner calcC (solveLoopE nSurf calcS s)

/-- `FeatureAssociation::checkSystemInitialization` (first scan only):
swap the feature buffers into the `Last` slots, seed
`transformSum[0] += imuPitchStart` and `transformSum[2] += imuRollStart`,
and mark the system initialized.  (KD-tree building and the two
publications carry no modelled state.) -/
def checkSystemInitializationE (s : FAState) : FAState :=
  { s with
    cornerLastNum := s.lessSharpNum
    lessSharpNum := s.cornerLastNum
    surfLastNum := s.lessFlatNum
    lessFlatNum := s.surfLastNum
    transformSum := fun i =>
      if i = 0 then s.transformSum 0 + s.imuPitchStart
      else if i = 2 then s.transformSum 2 + s.imuRollStart
      else s.transformSum i
    inited := true }

/-- `FeatureAssociation::publishOdometry`: record the published position
`(transformSum[3], transformSum[4], transformSum[5])` (the quaternion
with the axis swap is published alongside and carries no modelled
state). -/
def publishOdometryE (s : FAState) : FAState :=
  { s with odomLog := (s.transformSum 3, s.transformSum 4, s.transformSum 5) :: s.odomLog }

/-- `FeatureAssociation::publishCloudsLast`: `TransformToEnd` rewrites
only the feature-cloud points; then the buffers are swapped into the
`Last` slots, the sizes refreshed, and `frameCount` advanced with the
`skipFrameNum` reset. -/
def publishCloudsLastE (s : FAState) : FAState :=
  let s1 := { s with
    cornerLastNum := s.lessSharpNum
    lessSharpNum := s.cornerLastNum
    surfLastNum := s.lessFlatNum
    lessFlatNum := s.surfLastNum }
  let fc := s1.frameCount + 1
  { s1 with frameCount := if s1.skipFrameNum + 1 ≤ fc then 0 else fc }

/-- The association branch of one `runFeatureAssociation` cycle: on the
first scan, only `checkSystemInitialization` (the C++ `continue` skips
the rest); afterwards initial guess, solve, integration and the two
publications, in source order.  The phases before the branch
(`adjustDistortion` … `publishCloud`) write none of the fields modelled
in `FAState` apart from the IMU `Cur`/`Start` values, which are part of
the input state here. -/
def scanMotionE (O : RealOracles) (scanPeriod : ℚ) (nSurf : ℕ → ℕ) (calcS : CalcOracle)
    (nCorner : ℕ → ℕ) (calcC : CalcOracle) (s : FAState) : FAState :=
  if s.inited = false then checkSystemInitializationE s
  else
    publishCloudsLastE (publishOdometryE (integrateTransformationE O
      (updateTransformationE nSurf calcS nCorner calcC (updateInitialGuessE scanPeriod s))))

/-! ### Predicates used by the invariant proofs -/

/-- Invariant of the corner walk of one sector: the counter caps at 20,
the less-sharp trace realizes it, the sharp trace is its 2-prefix, every
emitted point is neighbor-picked, and the labels are `2` on the sharp
prefix and `1` on the remainder. -/
def CornerInv (s : CornerSt) : Prop :=
  s.n ≤ 20 ∧ s.less.length = s.n ∧ s.sharp = s.less.take 2 ∧
  (∀ i ∈ s.less, s.picked i = true) ∧
  (∀ i ∈ s.sharp, s.lab i = 2) ∧ (∀ i ∈ s.less.drop 2, s.lab i = 1)

/-- Cell `(a, b)` lies inside the `N_scan × horizontal_scan` image. -/
def inRegion (cfg : IPConfig) (a b : ℤ) : Prop :=
  0 ≤ a ∧ a < (cfg.nScan : ℤ) ∧ 0 ≤ b ∧ b < (cfg.hScan : ℤ)

/-- Within one BFS growth, labels only move from `0` to the current
cluster id `lc`. -/
def LabEvolves (lc : ℤ) (L0 L : Mat ℤ) : Prop :=
  ∀ a b, L a b = L0 a b ∨ (L0 a b = 0 ∧ L a b = lc)

/-- Across whole segmentation phases, labels only move from `0` to some
positive value (a cluster id or `999999`). -/
def EvolvesPos (L0 L : Mat ℤ) : Prop :=
  ∀ a b, L a b = L0 a b ∨ (L0 a b = 0 ∧ 0 < L a b)

/-- Joint BFS invariant relative to the label matrix `L0` at the start
of the cluster growth: labels evolve `0 ↦ lc`; queued cells are
unlabelled or carry `lc`; every pushed cell was unlabelled in `L0`. -/
def BfsInv (lc : ℤ) (L0 : Mat ℤ) (s : BfsSt) : Prop :=
  LabEvolves lc L0 s.lab ∧
  (∀ c ∈ s.queue, s.lab c.1 c.2 = 0 ∨ s.lab c.1 c.2 = lc) ∧
  (∀ c ∈ s.ap, L0 c.1 c.2 = 0)

/-- Every pushed cell already carries the cluster id. -/
def APLab (lc : ℤ) (s : BfsSt) : Prop :=
  ∀ c ∈ s.ap, s.lab c.1 c.2 = lc

/-! ### Concrete instances used by counterexamples and witnesses -/

/-- Trig oracle whose values agree with the real `sin`, `cos`, `asin`,
`atan2` at the arguments evaluated by the zero-angle runs below
(`sin 0 = 0`, `cos 0 = 1`, `asin 0 = 0`, `atan2 0 1 = 0`). -/
def ozOracle : RealOracles :=
  ⟨fun _ => 0, fun _ => 1, fun _ => 0, fun _ _ => 0, fun _ => 0, 3⟩

/-- Residual-count oracle of a scan producing no correspondences. -/
def nZero : ℕ → ℕ := fun _ => 0

/-- Solver-iteration oracle that leaves the transform unchanged. -/
def calcId : CalcOracle := fun _ tc d => ((tc, d), false)

/-- Eigenvalues `(1, 5, 100)` in the ascending order returned by
`Eigen::SelfAdjointEigenSolver`. -/
def eigC1 : ℕ → ℚ := fun n => if n = 0 then 1 else if n = 1 then 5 else 100

/-- Two candidate contents of the uninitialized local `matP`: the zero
matrix and the identity. -/
def junkP0 : Mat3 := fun _ _ => 0

def junkP1 : Mat3 := fun i j => if i = j then 1 else 0

def zeroV3 : Vec3 := fun _ => 0

def e0V3 : Vec3 := fun i => if i = 0 then 1 else 0

/-- Configuration of the C3 counterexample scan: one ring of six
columns. -/
def cfgC3 : IPConfig :=
  ⟨1, 6, 0, 5, 3, 1, 4/5, 3/5, 4/5, 3/5, 1, 1, 0, 0, 17/100⟩

/-- Oracle of the C3 run: the probe point gets range `1/20 < 0.1` and is
discarded by the projection guard (`asin`, `atan2` values are
irrelevant but within the real functions' ranges). -/
def oC3 : RealOracles :=
  ⟨fun _ => 0, fun _ => 1, fun _ => 0, fun _ _ => 0, fun _ => 1/20, 3⟩

/-- A single near-field return (a few centimetres from the sensor). -/
def probePt : RawPt := ⟨1/20, 0, 0, 0, true⟩

/-- Configuration of the C4 counterexample scan: two rings, one
column, `groundScanInd = 1`. -/
def cfgC4 : IPConfig :=
  ⟨2, 1, 1, 5, 3, 1, 4/5, 3/5, 4/5, 3/5, 1, 1, 0, 0, 17/100⟩

/-- Oracle of the C4 run: the probe point projects to row 1, column 0
(`asin` value `1`, range `1`). -/
def oC4 : RealOracles :=
  ⟨fun _ => 0, fun _ => 1, fun _ => 1, fun _ _ => 3/2, fun _ => 1, 3⟩

def probePtC4 : RawPt := ⟨0, 0, 1, 0, true⟩

/-- Configuration of the C6 counterexample: 4 rings × 2 columns,
`segmentValidPointNum = 5`, `segmentValidLineNum = 3`, and exact
trigonometric stand-ins `sin α = 4/5`, `cos α = 3/5`,
`tan(segmentTheta) = 1` under which two equal ranges always join
(`1·(4/5)/(1 − 3/5) = 2 > 1`). -/
def cfgC6 : IPConfig :=
  ⟨4, 2, 0, 5, 3, 1, 4/5, 3/5, 4/5, 3/5, 1, 1, 0, 0, 17/100⟩

/-- Range image of the C6 counterexample: a 5-cell cluster — cell
`(1,0)` alone on its ring, plus both columns of rings 2 and 3 — of
constant range 1; everything else has no return (`FLT_MAX`). -/
def rngC6 : Mat ℚ := fun a b =>
  if (a = 1 ∧ b = 0) ∨ ((a = 2 ∨ a = 3) ∧ (b = 0 ∨ b = 1)) then 1 else fltMax

/-- Labels after ground removal for `rngC6` (no ground): `-1` exactly on
the cells without return. -/
def labC6 : Mat ℤ := fun a b => if rngC6 a b = fltMax then -1 else 0

/-- The BFS artifacts of the C6 cluster growth from seed `(1, 0)`. -/
def bfsC6 : BfsSt :=
  bfsRunE cfgC6 rngC6 1 (stdFuel cfgC6) ⟨labC6, fun _ => false, [(1, 0)], [(1, 0)]⟩

/-- State of the C7 counterexample: initialized system, zeroed IMU, a
leftover per-scan increment `transformCur = (0,0,0,1/2,0,0)`, and a
previous-scan target of only 5 corner points (sparse). -/
def s7 : FAState :=
  { inited := true
    transformCur := fun i => if i = 3 then 1/2 else 0
    transformSum := fun _ => 0
    imuRollStart := 0, imuPitchStart := 0, imuYawStart := 0
    imuRollCur := 0, imuPitchCur := 0, imuYawCur := 0
    imuRollLast := 0, imuPitchLast := 0, imuYawLast := 0
    imuShiftFromStart := (0, 0, 0)
    imuVeloFromStart := (0, 0, 0)
    imuShiftFromStartCur := (0, 0, 0)
    imuVeloFromStartCur := (0, 0, 0)
    imuAngularFromStart := (0, 0, 0)
    cornerLastNum := 5, surfLastNum := 200
    lessSharpNum := 40, lessFlatNum := 300
    frameCount := 1, skipFrameNum := 1
    isDeg := false
    odomLog := [] }

/-- State of the C8 counterexample: the very first scan
(`systemInitedLM = false`) with a nonzero IMU pitch at scan start. -/
def s8 : FAState :=
  { s7 with inited := false, transformCur := fun _ => 0, imuPitchStart := 1 }

/-- An already-initialized variant of `s8`, used to exercise the second
branch of the amended C8 theorem. -/
def s8i : FAState := { s8 with inited := true }

/-- Tiny 1×1 configuration for the C5/C6 witnesses. -/
def cfgW : IPConfig :=
  ⟨1, 1, 0, 5, 3, 1, 4/5, 3/5, 4/5, 3/5, 1, 1, 0, 0, 17/100⟩

/-- One-point cloud of the C5 witness (range 1, projected to `(0,0)`). -/
def oW : RealOracles :=
  ⟨fun _ => 0, fun _ => 1, fun _ => 0, fun _ _ => 3/2, fun _ => 1, 3⟩

def probeW : RawPt := ⟨0, 1, 0, 0, true⟩

/-- All-unlabelled segmentation state and unit range image for the
C6 witness. -/
def stW : SegSt := ⟨fun _ _ => 0, 1⟩

def rngW : Mat ℚ := fun _ _ => 1

/-- Segmentation state entering the C6 cluster growth (labels after
ground removal, `_label_count = 1`). -/
def stC6 : SegSt := ⟨labC6, 1⟩

/-! ## Theorems -/

theorem mupd_self {α : Type} (M : Mat α) (a b : ℤ) (v : α) : mupd M a b v a b = v := by
  simp [mupd]

theorem mupd_cases {α : Type} (M : Mat α) (a b x y : ℤ) (v : α) :
    mupd M a b v x y = M x y ∨ mupd M a b v x y = v := by
  unfold mupd
  split
  · exact Or.inr rfl
  · exact Or.inl rfl

/-- Case description of one BFS neighbor visit: either nothing happens,
or an unlabelled cell is labelled `lc`, flagged, enqueued and pushed. -/
theorem nstepE_spec (cfg : IPConfig) (rng : Mat ℚ) (lc : ℤ) (frm d : ℤ × ℤ) (s : BfsSt) :
    nstepE cfg rng lc frm s d = s ∨
    ∃ x y, s.lab x y = 0 ∧
      nstepE cfg rng lc frm s d =
        { lab := mupd s.lab x y lc
          flags := fun t => if t = x then true else s.flags t
          queue := s.queue ++ [(x, y)]
          ap := s.ap ++ [(x, y)] } := by
  simp only [nstepE]
  split
  · exact Or.inl rfl
  · split
    · exact Or.inl rfl
    · next hlab =>
      split
      · exact Or.inr ⟨_, _, not_ne_iff.mp hlab, rfl⟩
      · exact Or.inl rfl

/-- Generic preservation of a predicate along the four neighbor visits
of one popped cell. -/
theorem foldl_nstep_pres (cfg : IPConfig) (rng : Mat ℚ) (lc : ℤ) (frm : ℤ × ℤ)
    (P : BfsSt → Prop) (hP : ∀ s d, P s → P (nstepE cfg rng lc frm s d)) :
    ∀ (ds : List (ℤ × ℤ)) (s : BfsSt), P s → P (ds.foldl (nstepE cfg rng lc frm) s) := by
  intro ds
  induction ds with
  | nil => intro s h; exact h
  | cons d ds ih => intro s h; exact ih _ (hP s d h)

theorem nstepE_inv (cfg : IPConfig) (rng : Mat ℚ) (lc : ℤ) (L0 : Mat ℤ) (frm : ℤ × ℤ)
    (s : BfsSt) (d : ℤ × ℤ) (h : BfsInv lc L0 s) :
    BfsInv lc L0 (nstepE cfg rng lc frm s d) := by
  rcases nstepE_spec cfg rng lc frm d s with heq | ⟨x, y, hxy, heq⟩
  · rw [heq]; exact h
  · obtain ⟨hev, hq, hap⟩ := h
    have hL0 : L0 x y = 0 := by
      rcases hev x y with h1 | h1
      · rw [← h1, hxy]
      · exact h1.1
    rw [heq]
    refine ⟨?_, ?_, ?_⟩
    · intro a b
      dsimp only
      by_cases hc : a = x ∧ b = y
      · obtain ⟨rfl, rfl⟩ := hc
        exact Or.inr ⟨hL0, by simp [mupd]⟩
      · rw [show mupd s.lab x y lc a b = s.lab a b from by simp [mupd, hc]]
        exact hev a b
    · intro c hc
      dsimp only at hc ⊢
      rcases List.mem_append.mp hc with hc' | hc'
      · by_cases hcx : c.1 = x ∧ c.2 = y
        · exact Or.inr (by simp [mupd, hcx.1, hcx.2])
        · rw [show mupd s.lab x y lc c.1 c.2 = s.lab c.1 c.2 from by simp [mupd, hcx]]
          exact hq c hc'
      · rw [List.mem_singleton.mp hc']
        exact Or.inr (mupd_self _ _ _ _)
    · intro c hc
      dsimp only at hc
      rcases List.mem_append.mp hc with hc' | hc'
      · exact hap c hc'
      · rw [List.mem_singleton.mp hc']
        exact hL0

theorem popStepE_inv (cfg : IPConfig) (rng : Mat ℚ) (lc : ℤ) (L0 : Mat ℤ) (c : ℤ × ℤ)
    (rest : List (ℤ × ℤ)) (s : BfsSt) (h : BfsInv lc L0 s) (hc : c ∈ s.queue)
    (hrest : ∀ c' ∈ rest, c' ∈ s.queue) :
    BfsInv lc L0 (popStepE cfg rng lc c rest s) := by
  obtain ⟨hev, hq, hap⟩ := h
  have hbase : BfsInv lc L0 { s with queue := rest, lab := mupd s.lab c.1 c.2 lc } := by
    refine ⟨?_, ?_, ?_⟩
    · intro a b
      dsimp only
      by_cases hcc : a = c.1 ∧ b = c.2
      · rw [show mupd s.lab c.1 c.2 lc a b = lc from by simp [mupd, hcc.1, hcc.2]]
        rcases hq c hc with h0 | h0
        · have hL0 : L0 c.1 c.2 = 0 := by
            rcases hev c.1 c.2 with h1 | h1
            · rw [← h1, h0]
            · exact h1.1
          exact Or.inr ⟨by rw [hcc.1, hcc.2]; exact hL0, rfl⟩
        · rcases hev c.1 c.2 with h1 | h1
          · exact Or.inl (by rw [hcc.1, hcc.2, ← h1, h0])
          · exact Or.inr ⟨by rw [hcc.1, hcc.2]; exact h1.1, rfl⟩
      · rw [show mupd s.lab c.1 c.2 lc a b = s.lab a b from by simp [mupd, hcc]]
        exact hev a b
    · intro c' hc'
      dsimp only at hc' ⊢
      by_cases hcc : c'.1 = c.1 ∧ c'.2 = c.2
      · exact Or.inr (by simp [mupd, hcc.1, hcc.2])
      · rw [show mupd s.lab c.1 c.2 lc c'.1 c'.2 = s.lab c'.1 c'.2 from by simp [mupd, hcc]]
        exact hq c' (hrest c' hc')
    · exact hap
  exact foldl_nstep_pres cfg rng lc c (BfsInv lc L0)
    (fun s' d h' => nstepE_inv cfg rng lc L0 c s' d h') neighborDirs _ hbase

theorem bfsRunE_inv (cfg : IPConfig) (rng : Mat ℚ) (lc : ℤ) (L0 : Mat ℤ) :
    ∀ (fuel : ℕ) (s : BfsSt), BfsInv lc L0 s → BfsInv lc L0 (bfsRunE cfg rng lc fuel s) := by
  intro fuel
  induction fuel with
  | zero => intro s h; exact h
  | succ f ih =>
    intro s h
    unfold bfsRunE
    match hq : s.queue with
    | [] => exact h
    | c :: rest =>
      refine ih _ (popStepE_inv cfg rng lc L0 c rest s h ?_ ?_)
      · rw [hq]; exact List.mem_cons_self _ _
      · intro c' hc'; rw [hq]; exact List.mem_cons_of_mem _ hc'

theorem nstepE_apLab (cfg : IPConfig) (rng : Mat ℚ) (lc : ℤ) (frm : ℤ × ℤ)
    (s : BfsSt) (d : ℤ × ℤ) (h : APLab lc s) : APLab lc (nstepE cfg rng lc frm s d) := by
  rcases nstepE_spec cfg rng lc frm d s with heq | ⟨x, y, hxy, heq⟩
  · rw [heq]; exact h
  · rw [heq]
    intro c hc
    dsimp only at hc ⊢
    rcases List.mem_append.mp hc with hc' | hc'
    · by_cases hcx : c.1 = x ∧ c.2 = y
      · simp [mupd, hcx.1, hcx.2]
      · rw [show mupd s.lab x y lc c.1 c.2 = s.lab c.1 c.2 from by simp [mupd, hcx]]
        exact h c hc'
    · rw [List.mem_singleton.mp hc']
      exact mupd_self _ _ _ _

theorem popStepE_apLab (cfg : IPConfig) (rng : Mat ℚ) (lc : ℤ) (c : ℤ × ℤ)
    (rest : List (ℤ × ℤ)) (s : BfsSt)
    (h : ∀ c' ∈ s.ap, s.lab c'.1 c'.2 = lc ∨ c' = c) :
    APLab lc (popStepE cfg rng lc c rest s) := by
  have hbase : APLab lc { s with queue := rest, lab := mupd s.lab c.1 c.2 lc } := by
    intro c' hc'
    dsimp only at hc' ⊢
    by_cases hcc : c'.1 = c.1 ∧ c'.2 = c.2
    · simp [mupd, hcc.1, hcc.2]
    · rw [show mupd s.lab c.1 c.2 lc c'.1 c'.2 = s.lab c'.1 c'.2 from by simp [mupd, hcc]]
      rcases h c' hc' with h1 | h1
      · exact h1
      · exact absurd ⟨congrArg Prod.fst h1, congrArg Prod.snd h1⟩ hcc
  exact foldl_nstep_pres cfg rng lc c (APLab lc)
    (fun s' d h' => nstepE_apLab cfg rng lc c s' d h') neighborDirs _ hbase

theorem bfsRunE_apLab (cfg : IPConfig) (rng : Mat ℚ) (lc : ℤ) :
    ∀ (fuel : ℕ) (s : BfsSt), APLab lc s → APLab lc (bfsRunE cfg rng lc fuel s) := by
  intro fuel
  induction fuel with
  | zero => intro s h; exact h
  | succ f ih =>
    intro s h
    unfold bfsRunE
    match s.queue with
    | [] => exact h
    | c :: rest =>
      exact ih _ (popStepE_apLab cfg rng lc c rest s (fun c' hc' => Or.inl (h c' hc')))

/-- From the canonical one-seed initial state, every pushed cell carries
the cluster id after the (nonzero-fuel) BFS: the seed is labelled by the
first pop, every other pushed cell at its enqueue. -/
theorem bfsRunE_apLab_init (cfg : IPConfig) (rng : Mat ℚ) (lc : ℤ) (f : ℕ)
    (L : Mat ℤ) (fl : ℤ → Bool) (r c : ℤ) :
    APLab lc (bfsRunE cfg rng lc (f + 1) ⟨L, fl, [(r, c)], [(r, c)]⟩) := by
  show APLab lc (bfsRunE cfg rng lc (f + 1) _)
  unfold bfsRunE
  exact bfsRunE_apLab cfg rng lc f _
    (popStepE_apLab cfg rng lc (r, c) [] _
      (fun c' hc' => Or.inr (List.mem_singleton.mp hc')))

theorem nstepE_ap_mono (cfg : IPConfig) (rng : Mat ℚ) (lc : ℤ) (frm : ℤ × ℤ)
    (s : BfsSt) (d : ℤ × ℤ) :
    ∃ t, (nstepE cfg rng lc frm s d).ap = s.ap ++ t := by
  rcases nstepE_spec cfg rng lc frm d s with heq | ⟨x, y, _, heq⟩
  · exact ⟨[], by rw [heq]; simp⟩
  · exact ⟨[(x, y)], by rw [heq]⟩

theorem bfsRunE_ap_mono (cfg : IPConfig) (rng : Mat ℚ) (lc : ℤ) :
    ∀ (fuel : ℕ) (s : BfsSt), ∃ t, (bfsRunE cfg rng lc fuel s).ap = s.ap ++ t := by
  intro fuel
  induction fuel with
  | zero => intro s; exact ⟨[], by simp [bfsRunE]⟩
  | succ f ih =>
    intro s
    unfold bfsRunE
    match s.queue with
    | [] => exact ⟨[], by simp⟩
    | c :: rest =>
      have hpop : ∃ t, (popStepE cfg rng lc c rest s).ap = s.ap ++ t := by
        have : ∀ (ds : List (ℤ × ℤ)) (s' : BfsSt), ∃ t,
            (ds.foldl (nstepE cfg rng lc c) s').ap = s'.ap ++ t := by
          intro ds
          induction ds with
          | nil => intro s'; exact ⟨[], by simp⟩
          | cons d ds ihd =>
            intro s'
            obtain ⟨t1, ht1⟩ := nstepE_ap_mono cfg rng lc c s' d
            obtain ⟨t2, ht2⟩ := ihd (nstepE cfg rng lc c s' d)
            exact ⟨t1 ++ t2, by rw [List.foldl_cons, ht2, ht1, List.append_assoc]⟩
        obtain ⟨t, ht⟩ := this neighborDirs { s with queue := rest, lab := mupd s.lab c.1 c.2 lc }
        exact ⟨t, by rw [popStepE, ht]⟩
      obtain ⟨t1, ht1⟩ := hpop
      obtain ⟨t2, ht2⟩ := ih (popStepE cfg rng lc c rest s)
      exact ⟨t1 ++ t2, by rw [ht2, ht1, List.append_assoc]⟩

/-- The rejected-cluster relabelling loop: cells in `all_pushed` end at
`999999`, all others keep their label. -/
theorem relabel_spec (l : List (ℤ × ℤ)) :
    ∀ (base : Mat ℤ) (a b : ℤ),
      (((a, b) ∈ l → (l.foldl (fun L c => mupd L c.1 c.2 999999) base) a b = 999999) ∧
       ((a, b) ∉ l → (l.foldl (fun L c => mupd L c.1 c.2 999999) base) a b = base a b)) := by
  induction l with
  | nil => intro base a b; exact ⟨fun h => absurd h (List.not_mem_nil _), fun _ => rfl⟩
  | cons c cs ih =>
    intro base a b
    constructor
    · intro hmem
      rw [List.foldl_cons]
      rcases List.mem_cons.mp hmem with hc | hc
      · by_cases hcs : (a, b) ∈ cs
        · exact (ih _ a b).1 hcs
        · rw [(ih _ a b).2 hcs]
          have : a = c.1 ∧ b = c.2 := ⟨congrArg Prod.fst hc, congrArg Prod.snd hc⟩
          simp [mupd, this.1, this.2]
      · exact (ih _ a b).1 hc
    · intro hmem
      have hnc : (a, b) ≠ c := fun h => hmem (List.mem_cons.mpr (Or.inl h))
      have hncs : (a, b) ∉ cs := fun h => hmem (List.mem_cons.mpr (Or.inr h))
      rw [List.foldl_cons, (ih _ a b).2 hncs]
      have : ¬(a = c.1 ∧ b = c.2) := by
        intro hcc
        exact hnc (Prod.ext hcc.1 hcc.2)
      simp [mupd, this]

/-- Labels after one `labelComponents` call: every cell keeps its label
or moves from `0` to the cluster id or to `999999`. -/
theorem labelComponentsE_labM (cfg : IPConfig) (rng : Mat ℚ) (st : SegSt) (r c : ℤ)
    (hseed : st.labM r c = 0) :
    ∀ a b, (labelComponentsE cfg rng st r c).labM a b = st.labM a b ∨
      (st.labM a b = 0 ∧
        ((labelComponentsE cfg rng st r c).labM a b = st.labelCount ∨
         (labelComponentsE cfg rng st r c).labM a b = 999999)) := by
  intro a b
  have hinv0 : BfsInv st.labelCount st.labM
      ⟨st.labM, fun _ => false, [(r, c)], [(r, c)]⟩ := by
    refine ⟨fun a b => Or.inl rfl, ?_, ?_⟩
    · intro c' hc'
      rw [List.mem_singleton.mp hc']
      exact Or.inl hseed
    · intro c' hc'
      rw [List.mem_singleton.mp hc']
      exact hseed
  have hinv := bfsRunE_inv cfg rng st.labelCount st.labM (stdFuel cfg) _ hinv0
  simp only [labelComponentsE]
  split
  · rcases hinv.1 a b with h1 | h1
    · exact Or.inl h1
    · exact Or.inr ⟨h1.1, Or.inl h1.2⟩
  · set bfs := bfsRunE cfg rng st.labelCount (stdFuel cfg)
      ⟨st.labM, fun _ => false, [(r, c)], [(r, c)]⟩ with hbfs
    dsimp only
    by_cases hmem : (a, b) ∈ bfs.ap
    · have h999 := (relabel_spec bfs.ap bfs.lab a b).1 hmem
      exact Or.inr ⟨hinv.2.2 (a, b) hmem, Or.inr h999⟩
    · have hkeep := (relabel_spec bfs.ap bfs.lab a b).2 hmem
      rcases hinv.1 a b with h1 | h1
      · exact Or.inl (by rw [hkeep]; exact h1)
      · exact Or.inr ⟨h1.1, Or.inl (by rw [hkeep]; exact h1.2)⟩

/-- The seed of a `labelComponents` call ends with the cluster id (if
the segment was accepted) or `999999` (if rejected); in particular not
`0`. -/
theorem labelComponentsE_seed (cfg : IPConfig) (rng : Mat ℚ) (st : SegSt) (r c : ℤ) :
    (labelComponentsE cfg rng st r c).labM r c = st.labelCount ∨
    (labelComponentsE cfg rng st r c).labM r c = 999999 := by
  have hap : APLab st.labelCount (bfsRunE cfg rng st.labelCount (stdFuel cfg)
      ⟨st.labM, fun _ => false, [(r, c)], [(r, c)]⟩) := by
    have : stdFuel cfg = (2 * cfg.nScan * cfg.hScan + 1) + 1 := rfl
    rw [this]
    exact bfsRunE_apLab_init cfg rng st.labelCount _ st.labM _ r c
  have hmem : (r, c) ∈ (bfsRunE cfg rng st.labelCount (stdFuel cfg)
      ⟨st.labM, fun _ => false, [(r, c)], [(r, c)]⟩).ap := by
    obtain ⟨t, ht⟩ := bfsRunE_ap_mono cfg rng st.labelCount (stdFuel cfg)
      ⟨st.labM, fun _ => false, [(r, c)], [(r, c)]⟩
    rw [ht]
    exact List.mem_append.mpr (Or.inl (List.mem_singleton.mpr rfl))
  simp only [labelComponentsE]
  split
  · exact Or.inl (hap (r, c) hmem)
  · exact Or.inr ((relabel_spec _ _ r c).1 hmem)

theorem labelComponentsE_labelCount (cfg : IPConfig) (rng : Mat ℚ) (st : SegSt) (r c : ℤ) :
    (labelComponentsE cfg rng st r c).labelCount = st.labelCount ∨
    (labelComponentsE cfg rng st r c).labelCount = st.labelCount + 1 := by
  simp only [labelComponentsE]
  split
  · exact Or.inr rfl
  · exact Or.inl rfl

theorem evolvesPos_trans {L0 L1 L2 : Mat ℤ} (h1 : EvolvesPos L0 L1) (h2 : EvolvesPos L1 L2) :
    EvolvesPos L0 L2 := by
  intro a b
  rcases h2 a b with h | h <;> rcases h1 a b with h' | h'
  · exact Or.inl (h.trans h')
  · exact Or.inr ⟨h'.1, by rw [h]; exact h'.2⟩
  · refine Or.inr ⟨?_, h.2⟩
    rw [← h', h.1]
  · omega

theorem labelComponentsE_evolvesPos (cfg : IPConfig) (rng : Mat ℚ) (st : SegSt) (r c : ℤ)
    (hseed : st.labM r c = 0) (hlc : 1 ≤ st.labelCount) :
    EvolvesPos st.labM (labelComponentsE cfg rng st r c).labM := by
  intro a b
  rcases labelComponentsE_labM cfg rng st r c hseed a b with h | h
  · exact Or.inl h
  · refine Or.inr ⟨h.1, ?_⟩
    rcases h.2 with h2 | h2 <;> omega

/-- Invariant of the outer segmentation loop: the label count stays
positive, labels only evolve `0 ↦ positive`, and every visited cell ends
nonzero. -/
theorem segLoop_fold_spec (cfg : IPConfig) (rng : Mat ℚ) :
    ∀ (l : List (ℤ × ℤ)) (st : SegSt), 1 ≤ st.labelCount →
      1 ≤ (l.foldl (fun st c =>
            if st.labM c.1 c.2 = 0 then labelComponentsE cfg rng st c.1 c.2 else st) st).labelCount ∧
      EvolvesPos st.labM (l.foldl (fun st c =>
            if st.labM c.1 c.2 = 0 then labelComponentsE cfg rng st c.1 c.2 else st) st).labM ∧
      ∀ c ∈ l, (l.foldl (fun st c =>
            if st.labM c.1 c.2 = 0 then labelComponentsE cfg rng st c.1 c.2 else st) st).labM c.1 c.2 ≠ 0 := by
  intro l
  induction l with
  | nil =>
    intro st hlc
    exact ⟨hlc, fun a b => Or.inl rfl, fun c hc => absurd hc (List.not_mem_nil _)⟩
  | cons c0 cs ih =>
    intro st hlc
    rw [List.foldl_cons]
    by_cases h0 : st.labM c0.1 c0.2 = 0
    · rw [if_pos h0]
      set st' := labelComponentsE cfg rng st c0.1 c0.2 with hst'
      have hlc' : 1 ≤ st'.labelCount := by
        rcases labelComponentsE_labelCount cfg rng st c0.1 c0.2 with h | h <;>
          rw [hst', h] <;> omega
      obtain ⟨hl1, hl2, hl3⟩ := ih st' hlc'
      have hev1 : EvolvesPos st.labM st'.labM :=
        labelComponentsE_evolvesPos cfg rng st c0.1 c0.2 h0 hlc
      refine ⟨hl1, evolvesPos_trans hev1 hl2, ?_⟩
      intro c hc
      rcases List.mem_cons.mp hc with hc' | hc'
      · subst hc'
        have hseed : st'.labM c.1 c.2 = st.labelCount ∨ st'.labM c.1 c.2 = 999999 :=
          labelComponentsE_seed cfg rng st c.1 c.2
        rcases hl2 c.1 c.2 with hfin | hfin
        · rw [hfin]; rcases hseed with h | h <;> omega
        · omega
      · exact hl3 c hc'
    · rw [if_neg h0]
      obtain ⟨hl1, hl2, hl3⟩ := ih st hlc
      refine ⟨hl1, hl2, ?_⟩
      intro c hc
      rcases List.mem_cons.mp hc with hc' | hc'
      · subst hc'
        rcases hl2 c.1 c.2 with hfin | hfin
        · rw [hfin]; exact h0 ∘ id
        · omega
      · exact hl3 c hc'

/-- Membership in one row's cell list. -/
theorem mem_rowOf (cfg : IPConfig) (i : ℕ) (a b : ℤ) :
    (a, b) ∈ rowOf cfg i ↔ a = (i : ℤ) ∧ 0 ≤ b ∧ b < (cfg.hScan : ℤ) := by
  simp only [rowOf, List.mem_map, List.mem_range]
  constructor
  · rintro ⟨j, hj, hp⟩
    injection hp with h1 h2
    subst h1
    subst h2
    exact ⟨rfl, Int.ofNat_nonneg j, by exact_mod_cast hj⟩
  · rintro ⟨rfl, hb0, hbH⟩
    refine ⟨b.toNat, by omega, ?_⟩
    rw [Int.toNat_of_nonneg hb0]

/-- Membership in the row-major cell enumeration is exactly membership
in the image region. -/
theorem mem_rowMajor (cfg : IPConfig) (a b : ℤ) :
    (a, b) ∈ rowMajor cfg ↔ inRegion cfg a b := by
  have key : ∀ (l : List ℕ) (p : ℤ × ℤ),
      (p ∈ l.foldr (fun i acc => rowOf cfg i ++ acc) [] ↔ ∃ i ∈ l, p ∈ rowOf cfg i) := by
    intro l
    induction l with
    | nil => simp
    | cons i is ih =>
      intro p
      rw [List.foldr_cons, List.mem_append, ih]
      constructor
      · rintro (hp | ⟨i', hi', hp⟩)
        · exact ⟨i, List.mem_cons_self _ _, hp⟩
        · exact ⟨i', List.mem_cons_of_mem _ hi', hp⟩
      · rintro ⟨i', hi', hp⟩
        rcases List.mem_cons.mp hi' with rfl | hi'
        · exact Or.inl hp
        · exact Or.inr ⟨i', hi', hp⟩
  rw [rowMajor, key]
  constructor
  · rintro ⟨i, hi, hp⟩
    rw [List.mem_range] at hi
    rw [mem_rowOf] at hp
    refine ⟨by omega, ?_, hp.2.1, hp.2.2⟩
    have := hp.1
    omega
  · rintro ⟨ha0, haN, hb0, hbH⟩
    refine ⟨a.toNat, ?_, ?_⟩
    · rw [List.mem_range]; omega
    · rw [mem_rowOf]
      exact ⟨by omega, hb0, hbH⟩

theorem groundPairE_fields (O : RealOracles) (cfg : IPConfig) (st : IPState) (i j : ℤ) :
    (groundPairE O cfg st i j).labM = st.labM ∧
    (groundPairE O cfg st i j).rangeM = st.rangeM ∧
    (groundPairE O cfg st i j).fullCloud = st.fullCloud := by
  simp only [groundPairE]
  split
  · exact ⟨rfl, rfl, rfl⟩
  · split
    · exact ⟨rfl, rfl, rfl⟩
    · exact ⟨rfl, rfl, rfl⟩

theorem groundRemovalE_fields (O : RealOracles) (cfg : IPConfig) (st : IPState) :
    (groundRemovalE O cfg st).rangeM = st.rangeM ∧
    (groundRemovalE O cfg st).fullCloud = st.fullCloud := by
  have hinner : ∀ (l : List ℕ) (s : IPState) (j : ℕ),
      ((l.foldl (fun s' (i : ℕ) => groundPairE O cfg s' (i : ℤ) (j : ℤ)) s).labM = s.labM ∧
       (l.foldl (fun s' (i : ℕ) => groundPairE O cfg s' (i : ℤ) (j : ℤ)) s).rangeM = s.rangeM ∧
       (l.foldl (fun s' (i : ℕ) => groundPairE O cfg s' (i : ℤ) (j : ℤ)) s).fullCloud =
         s.fullCloud) := by
    intro l
    induction l with
    | nil => intro s j; exact ⟨rfl, rfl, rfl⟩
    | cons i is ih =>
      intro s j
      rw [List.foldl_cons]
      obtain ⟨h1, h2, h3⟩ := ih (groundPairE O cfg s (i : ℤ) (j : ℤ)) j
      obtain ⟨g1, g2, g3⟩ := groundPairE_fields O cfg s (i : ℤ) (j : ℤ)
      exact ⟨h1.trans g1, h2.trans g2, h3.trans g3⟩
  have houter : ∀ (l : List ℕ) (s : IPState),
      ((l.foldl (fun s (j : ℕ) => (List.range cfg.gsi).foldl
          (fun s' (i : ℕ) => groundPairE O cfg s' (i : ℤ) (j : ℤ)) s) s).labM = s.labM ∧
       (l.foldl (fun s (j : ℕ) => (List.range cfg.gsi).foldl
          (fun s' (i : ℕ) => groundPairE O cfg s' (i : ℤ) (j : ℤ)) s) s).rangeM = s.rangeM ∧
       (l.foldl (fun s (j : ℕ) => (List.range cfg.gsi).foldl
          (fun s' (i : ℕ) => groundPairE O cfg s' (i : ℤ) (j : ℤ)) s) s).fullCloud =
         s.fullCloud) := by
    intro l
    induction l with
    | nil => intro s; exact ⟨rfl, rfl, rfl⟩
    | cons j js ih =>
      intro s
      rw [List.foldl_cons]
      obtain ⟨h1, h2, h3⟩ := ih _
      obtain ⟨g1, g2, g3⟩ := hinner (List.range cfg.gsi) s j
      exact ⟨h1.trans g1, h2.trans g2, h3.trans g3⟩
  exact ⟨(houter _ st).2.1, (houter _ st).2.2⟩

/-- After `groundRemoval`, the label of a cell is `-1` exactly when the
cell is in the image and is ground or has no return; otherwise the label
is whatever the projection left (the pair loop never writes labels). -/
theorem groundRemovalE_labM (O : RealOracles) (cfg : IPConfig) (st : IPState) (a b : ℤ) :
    (groundRemovalE O cfg st).labM a b =
      if (0 ≤ a ∧ a < (cfg.nScan : ℤ) ∧ 0 ≤ b ∧ b < (cfg.hScan : ℤ)) ∧
         ((groundRemovalE O cfg st).groundM a b = 1 ∨ st.rangeM a b = fltMax) then -1
      else st.labM a b := by
  have hinner : ∀ (l : List ℕ) (s : IPState) (j : ℕ),
      ((l.foldl (fun s' (i : ℕ) => groundPairE O cfg s' (i : ℤ) (j : ℤ)) s).labM = s.labM ∧
       (l.foldl (fun s' (i : ℕ) => groundPairE O cfg s' (i : ℤ) (j : ℤ)) s).rangeM = s.rangeM) := by
    intro l
    induction l with
    | nil => intro s j; exact ⟨rfl, rfl⟩
    | cons i is ih =>
      intro s j
      rw [List.foldl_cons]
      obtain ⟨h1, h2⟩ := ih (groundPairE O cfg s (i : ℤ) (j : ℤ)) j
      obtain ⟨g1, g2, _⟩ := groundPairE_fields O cfg s (i : ℤ) (j : ℤ)
      exact ⟨h1.trans g1, h2.trans g2⟩
  have houter : ∀ (l : List ℕ) (s : IPState),
      ((l.foldl (fun s (j : ℕ) => (List.range cfg.gsi).foldl
          (fun s' (i : ℕ) => groundPairE O cfg s' (i : ℤ) (j : ℤ)) s) s).labM = s.labM ∧
       (l.foldl (fun s (j : ℕ) => (List.range cfg.gsi).foldl
          (fun s' (i : ℕ) => groundPairE O cfg s' (i : ℤ) (j : ℤ)) s) s).rangeM = s.rangeM) := by
    intro l
    induction l with
    | nil => intro s; exact ⟨rfl, rfl⟩
    | cons j js ih =>
      intro s
      rw [List.foldl_cons]
      obtain ⟨h1, h2⟩ := ih _
      obtain ⟨g1, g2⟩ := hinner (List.range cfg.gsi) s j
      exact ⟨h1.trans g1, h2.trans g2⟩
  show (if _ ∧ (_ = 1 ∨ _) then _ else _) = _
  obtain ⟨h1, h2⟩ := houter (List.range cfg.hScan) st
  rw [h1, h2]
  rfl

theorem projectOneE_fields (O : RealOracles) (cfg : IPConfig) (st : IPState) (p : RawPt) :
    (projectOneE O cfg st p).labM = st.labM ∧ (projectOneE O cfg st p).groundM = st.groundM := by
  simp only [projectOneE]
  split
  · exact ⟨rfl, rfl⟩
  · split
    · exact ⟨rfl, rfl⟩
    · split
      · exact ⟨rfl, rfl⟩
      · exact ⟨rfl, rfl⟩

theorem projectPointCloudE_fields (O : RealOracles) (cfg : IPConfig) :
    ∀ (cloud : List RawPt) (st : IPState),
      (projectPointCloudE O cfg st cloud).labM = st.labM ∧
      (projectPointCloudE O cfg st cloud).groundM = st.groundM := by
  intro cloud
  induction cloud with
  | nil => intro st; exact ⟨rfl, rfl⟩
  | cons p ps ih =>
    intro st
    show (projectPointCloudE O cfg _ ps).labM = _ ∧ _
    obtain ⟨h1, h2⟩ := ih (projectOneE O cfg st p)
    obtain ⟨g1, g2⟩ := projectOneE_fields O cfg st p
    exact ⟨h1.trans g1, h2.trans g2⟩

/-- C5: after `cloudSegmentation` completes, the label matrix is a
partition: every image cell has a nonzero label; ground or no-return
cells carry `-1`; every other cell carries a positive label (a cluster
id or the rejected marker `999999`). -/
theorem c5_labels_partition (O : RealOracles) (cfg : IPConfig) (cloud : List RawPt)
    (a b : ℤ) (hab : inRegion cfg a b) :
    let stG := groundRemovalE O cfg (projectPointCloudE O cfg resetParametersE cloud)
    let seg := segLoopE cfg stG.rangeM stG.labM
    seg.labM a b ≠ 0 ∧
    ((stG.groundM a b = 1 ∨ stG.rangeM a b = fltMax) → seg.labM a b = -1) ∧
    (¬(stG.groundM a b = 1 ∨ stG.rangeM a b = fltMax) → 0 < seg.labM a b) := by
  intro stG seg
  set stP := projectPointCloudE O cfg resetParametersE cloud with hstP
  have hfold := segLoop_fold_spec cfg stG.rangeM (rowMajor cfg) ⟨stG.labM, 1⟩ (by norm_num)
  have hseg : seg = (rowMajor cfg).foldl
      (fun st c => if st.labM c.1 c.2 = 0 then labelComponentsE cfg stG.rangeM st c.1 c.2 else st)
      ⟨stG.labM, 1⟩ := rfl
  have hmem : (a, b) ∈ rowMajor cfg := (mem_rowMajor cfg a b).mpr hab
  have hne : seg.labM a b ≠ 0 := by rw [hseg]; exact hfold.2.2 (a, b) hmem
  have hev : EvolvesPos stG.labM seg.labM := by rw [hseg]; exact hfold.2.1
  have hrange : stG.rangeM a b = stP.rangeM a b := by
    rw [(groundRemovalE_fields O cfg stP).1]
  have hL0 : stG.labM a b =
      if (stG.groundM a b = 1 ∨ stG.rangeM a b = fltMax) then -1 else 0 := by
    have h := groundRemovalE_labM O cfg stP a b
    rw [← hrange] at h
    by_cases hc : stG.groundM a b = 1 ∨ stG.rangeM a b = fltMax
    · rw [show stG.labM a b = (groundRemovalE O cfg stP).labM a b from rfl, h,
        if_pos ⟨hab, hc⟩, if_pos hc]
    · rw [show stG.labM a b = (groundRemovalE O cfg stP).labM a b from rfl, h,
        if_neg (fun hh => hc hh.2), if_neg hc,
        (projectPointCloudE_fields O cfg cloud resetParametersE).1]
      rfl
  refine ⟨hne, ?_, ?_⟩
  · intro hcond
    rcases hev a b with h | h
    · rw [h, hL0, if_pos hcond]
    · rw [hL0, if_pos hcond] at h
      exact absurd h.1 (by norm_num)
  · intro hcond
    rcases hev a b with h | h
    · rw [h, hL0, if_neg hcond] at hne ⊢
      exact absurd rfl hne
    · exact h.2

/-- Witness for `c5_labels_partition` at a concrete one-point scan on a
1×1 image. -/
theorem c5_labels_partition_witness :
    inRegion cfgW 0 0 ∧
    (let stG := groundRemovalE oW cfgW (projectPointCloudE oW cfgW resetParametersE [probeW])
     let seg := segLoopE cfgW stG.rangeM stG.labM
     seg.labM 0 0 ≠ 0 ∧
     ((stG.groundM 0 0 = 1 ∨ stG.rangeM 0 0 = fltMax) → seg.labM 0 0 = -1) ∧
     (¬(stG.groundM 0 0 = 1 ∨ stG.rangeM 0 0 = fltMax) → 0 < seg.labM 0 0)) :=
  ⟨by constructor <;> norm_num [cfgW],
   c5_labels_partition oW cfgW [probeW] 0 0 (by constructor <;> norm_num [cfgW])⟩

/-- The validation boolean of `labelComponents`, as a proposition. -/
theorem feasibleSeg_iff (cfg : IPConfig) (r : BfsSt) :
    feasibleSeg cfg r = true ↔
      (30 ≤ r.ap.length ∨ (cfg.vpn ≤ r.ap.length ∧ cfg.vln ≤ lineCountE cfg r.flags)) := by
  unfold feasibleSeg
  split
  · next h30 => simp [h30]
  · next h30 =>
    split
    · next hvpn => simp [h30, hvpn]
    · next hvpn => simp [h30, hvpn]

/-- C6 (amended): a BFS cluster is accepted — all its pushed cells keep
the fresh positive id and `_label_count` advances — iff its size is at
least 30, or its size is at least `segmentValidPointNum` and at least
`segmentValidLineNum` rows were flagged during neighbor growth (the
seed's own row is flagged only if some cluster cell is grown into it);
otherwise every pushed cell is relabelled `999999`. -/
theorem c6_amended (cfg : IPConfig) (rng : Mat ℚ) (st : SegSt) (r c : ℤ)
    (_hseed : st.labM r c = 0) (_hlc : 1 ≤ st.labelCount) :
    ((30 ≤ (bfsRunE cfg rng st.labelCount (stdFuel cfg)
          ⟨st.labM, fun _ => false, [(r, c)], [(r, c)]⟩).ap.length ∨
      (cfg.vpn ≤ (bfsRunE cfg rng st.labelCount (stdFuel cfg)
          ⟨st.labM, fun _ => false, [(r, c)], [(r, c)]⟩).ap.length ∧
       cfg.vln ≤ lineCountE cfg (bfsRunE cfg rng st.labelCount (stdFuel cfg)
          ⟨st.labM, fun _ => false, [(r, c)], [(r, c)]⟩).flags)) →
      ((∀ p ∈ (bfsRunE cfg rng st.labelCount (stdFuel cfg)
          ⟨st.labM, fun _ => false, [(r, c)], [(r, c)]⟩).ap,
          (labelComponentsE cfg rng st r c).labM p.1 p.2 = st.labelCount) ∧
       (labelComponentsE cfg rng st r c).labelCount = st.labelCount + 1)) ∧
    (¬(30 ≤ (bfsRunE cfg rng st.labelCount (stdFuel cfg)
          ⟨st.labM, fun _ => false, [(r, c)], [(r, c)]⟩).ap.length ∨
      (cfg.vpn ≤ (bfsRunE cfg rng st.labelCount (stdFuel cfg)
          ⟨st.labM, fun _ => false, [(r, c)], [(r, c)]⟩).ap.length ∧
       cfg.vln ≤ lineCountE cfg (bfsRunE cfg rng st.labelCount (stdFuel cfg)
          ⟨st.labM, fun _ => false, [(r, c)], [(r, c)]⟩).flags)) →
      ((∀ p ∈ (bfsRunE cfg rng st.labelCount (stdFuel cfg)
          ⟨st.labM, fun _ => false, [(r, c)], [(r, c)]⟩).ap,
          (labelComponentsE cfg rng st r c).labM p.1 p.2 = 999999) ∧
       (labelComponentsE cfg rng st r c).labelCount = st.labelCount)) := by
  have hap : APLab st.labelCount (bfsRunE cfg rng st.labelCount (stdFuel cfg)
      ⟨st.labM, fun _ => false, [(r, c)], [(r, c)]⟩) := by
    have hs : stdFuel cfg = (2 * cfg.nScan * cfg.hScan + 1) + 1 := rfl
    rw [hs]
    exact bfsRunE_apLab_init cfg rng st.labelCount _ st.labM _ r c
  constructor
  · intro hacc
    have hf : feasibleSeg cfg (bfsRunE cfg rng st.labelCount (stdFuel cfg)
        ⟨st.labM, fun _ => false, [(r, c)], [(r, c)]⟩) = true :=
      (feasibleSeg_iff _ _).mpr hacc
    constructor
    · intro p hp
      simp only [labelComponentsE]
      rw [if_pos hf]
      exact hap p hp
    · simp only [labelComponentsE]
      rw [if_pos hf]
  · intro hrej
    have hf : ¬(feasibleSeg cfg (bfsRunE cfg rng st.labelCount (stdFuel cfg)
        ⟨st.labM, fun _ => false, [(r, c)], [(r, c)]⟩) = true) :=
      fun h => hrej ((feasibleSeg_iff _ _).mp h)
    constructor
    · intro p hp
      simp only [labelComponentsE]
      rw [if_neg hf]
      refine (relabel_spec _ _ p.1 p.2).1 ?_
      rwa [Prod.mk.eta]
    · simp only [labelComponentsE]
      rw [if_neg hf]

/-- Witness for `c6_amended` on a 1×1 image whose single-cell cluster is
rejected. -/
theorem c6_amended_witness :
    stW.labM 0 0 = 0 ∧ (1 : ℤ) ≤ stW.labelCount ∧
    (¬(30 ≤ (bfsRunE cfgW rngW stW.labelCount (stdFuel cfgW)
          ⟨stW.labM, fun _ => false, [(0, 0)], [(0, 0)]⟩).ap.length ∨
      (cfgW.vpn ≤ (bfsRunE cfgW rngW stW.labelCount (stdFuel cfgW)
          ⟨stW.labM, fun _ => false, [(0, 0)], [(0, 0)]⟩).ap.length ∧
       cfgW.vln ≤ lineCountE cfgW (bfsRunE cfgW rngW stW.labelCount (stdFuel cfgW)
          ⟨stW.labM, fun _ => false, [(0, 0)], [(0, 0)]⟩).flags)) →
      ((∀ p ∈ (bfsRunE cfgW rngW stW.labelCount (stdFuel cfgW)
          ⟨stW.labM, fun _ => false, [(0, 0)], [(0, 0)]⟩).ap,
          (labelComponentsE cfgW rngW stW 0 0).labM p.1 p.2 = 999999) ∧
       (labelComponentsE cfgW rngW stW 0 0).labelCount = stW.labelCount)) :=
  ⟨rfl, le_refl 1, (c6_amended cfgW rngW stW 0 0 rfl (le_refl 1)).2⟩

/-- C6 counterexample: a concrete cluster of 5 cells (`≥
segmentValidPointNum = 5`) spanning 3 distinct rows (`≥
segmentValidLineNum = 3`) — the seed alone on its ring — is *rejected*
to `999999` and `_label_count` does not advance, because
`lineCountFlag` is set only when a neighbor is grown, never for the
seed's own row: only 2 rows are flagged.  The claim's acceptance rule
("number of distinct rows it touched") says this cluster must be
accepted with a positive id. -/
theorem c6_counterexample :
    bfsC6.ap.length = 5 ∧ cfgC6.vpn ≤ bfsC6.ap.length ∧
    (bfsC6.ap.map Prod.fst).dedup.length = 3 ∧
    cfgC6.vpn = 5 ∧ cfgC6.vln = 3 ∧
    (labelComponentsE cfgC6 rngC6 stC6 1 0).labM 1 0 = 999999 ∧
    (labelComponentsE cfgC6 rngC6 stC6 1 0).labelCount = 1 := by
  refine ⟨?_, ?_, ?_, rfl, rfl, ?_, ?_⟩
  all_goals
    norm_num [bfsC6, labelComponentsE, feasibleSeg, lineCountE, bfsRunE, popStepE, nstepE,
      wrapY, joinTestE, neighborDirs, stdFuel, mupd, rngC6, labC6, stC6, cfgC6, fltMax,
      List.range_succ, List.dedup]

theorem emitCellE_cases (cfg : IPConfig) (lab ground : Mat ℤ) (i : ℤ) (sz : ℕ × ℕ) (j : ℤ) :
    emitCellE cfg lab ground i sz j = sz ∨
    emitCellE cfg lab ground i sz j = (sz.1 + 1, sz.2) ∨
    emitCellE cfg lab ground i sz j = (sz.1, sz.2 + 1) := by
  unfold emitCellE
  split
  · split
    · split
      · exact Or.inr (Or.inr rfl)
      · exact Or.inl rfl
    · split
      · exact Or.inl rfl
      · exact Or.inr (Or.inl rfl)
  · exact Or.inl rfl

theorem emitCells_size_ge (cfg : IPConfig) (lab ground : Mat ℤ) (i : ℤ) :
    ∀ (l : List ℕ) (sz : ℕ × ℕ),
      sz.1 ≤ (l.foldl (fun sz (j : ℕ) => emitCellE cfg lab ground i sz (j : ℤ)) sz).1 := by
  intro l
  induction l with
  | nil => intro sz; exact le_refl _
  | cons j js ih =>
    intro sz
    rw [List.foldl_cons]
    refine le_trans ?_ (ih (emitCellE cfg lab ground i sz (j : ℤ)))
    rcases emitCellE_cases cfg lab ground i sz (j : ℤ) with h | h | h <;> rw [h] <;> omega

theorem emitRingE_size_ge (cfg : IPConfig) (lab ground : Mat ℤ) (st : EmSt) (i : ℤ) :
    st.size ≤ (emitRingE cfg lab ground st i).size :=
  emitCells_size_ge cfg lab ground i (List.range cfg.hScan) (st.size, st.outliers)

theorem emitRingE_starts (cfg : IPConfig) (lab ground : Mat ℤ) (st : EmSt) (i : ℤ) :
    (emitRingE cfg lab ground st i).starts = st.starts ++ [(st.size : ℤ) - 1 + 5] := rfl

theorem emitRingE_ends (cfg : IPConfig) (lab ground : Mat ℤ) (st : EmSt) (i : ℤ) :
    (emitRingE cfg lab ground st i).ends =
      st.ends ++ [((emitRingE cfg lab ground st i).size : ℤ) - 1 - 5] := rfl

theorem emitRingE_emitted (cfg : IPConfig) (lab ground : Mat ℤ) (st : EmSt) (i : ℤ) :
    (emitRingE cfg lab ground st i).emitted =
      st.emitted ++ [(emitRingE cfg lab ground st i).size - st.size] := rfl

theorem sumWindows_append :
    ∀ (xs ys : List ℤ) (a b : ℤ), xs.length = ys.length →
      sumWindows (xs ++ [a]) (ys ++ [b]) = sumWindows xs ys + (b - a + 11) := by
  intro xs
  induction xs with
  | nil =>
    intro ys a b hlen
    cases ys with
    | nil => simp [sumWindows]
    | cons y ys => simp at hlen
  | cons x xs ih =>
    intro ys a b hlen
    cases ys with
    | nil => simp at hlen
    | cons y ys =>
      rw [List.cons_append, List.cons_append]
      show (y - x + 11) + sumWindows (xs ++ [a]) (ys ++ [b]) =
        ((y - x + 11) + sumWindows xs ys) + (b - a + 11)
      rw [ih ys a b (by simpa using hlen)]
      ring

/-- The per-scan emission bookkeeping: lengths agree and the window sum
telescopes to the emitted count plus one per processed ring. -/
theorem emit_fold_spec (cfg : IPConfig) (lab ground : Mat ℤ) :
    ∀ (l : List ℕ) (st : EmSt), st.starts.length = st.ends.length →
      (l.foldl (fun st (i : ℕ) => emitRingE cfg lab ground st (i : ℤ)) st).starts.length =
        (l.foldl (fun st (i : ℕ) => emitRingE cfg lab ground st (i : ℤ)) st).ends.length ∧
      sumWindows (l.foldl (fun st (i : ℕ) => emitRingE cfg lab ground st (i : ℤ)) st).starts
          (l.foldl (fun st (i : ℕ) => emitRingE cfg lab ground st (i : ℤ)) st).ends =
        sumWindows st.starts st.ends +
          (((l.foldl (fun st (i : ℕ) => emitRingE cfg lab ground st (i : ℤ)) st).size : ℤ)
            - st.size) + l.length := by
  intro l
  induction l with
  | nil =>
    intro st hlen
    refine ⟨hlen, ?_⟩
    simp
  | cons i is ih =>
    intro st hlen
    rw [List.foldl_cons]
    set st1 := emitRingE cfg lab ground st (i : ℤ) with hst1
    have hlen1 : st1.starts.length = st1.ends.length := by
      rw [hst1, emitRingE_starts, emitRingE_ends]
      simp [hlen]
    obtain ⟨hl, hs⟩ := ih st1 hlen1
    refine ⟨hl, ?_⟩
    rw [hs]
    have hsum1 : sumWindows st1.starts st1.ends =
        sumWindows st.starts st.ends + ((st1.size : ℤ) - st.size + 1) := by
      rw [hst1, emitRingE_starts, emitRingE_ends, sumWindows_append _ _ _ _ hlen]
      rw [← hst1]
      ring
    rw [hsum1, List.length_cons]
    push_cast
    ring

theorem emit_fold_chain (cfg : IPConfig) (lab ground : Mat ℤ) :
    ∀ (l : List ℕ) (st : EmSt),
      (List.Chain' (· ≤ ·) st.starts ∧ ∀ x ∈ st.starts, x ≤ (st.size : ℤ) - 1 + 5) →
      (List.Chain' (· ≤ ·) st.ends ∧ ∀ x ∈ st.ends, x ≤ (st.size : ℤ) - 1 - 5) →
      ((List.Chain' (· ≤ ·)
          (l.foldl (fun st (i : ℕ) => emitRingE cfg lab ground st (i : ℤ)) st).starts ∧
        ∀ x ∈ (l.foldl (fun st (i : ℕ) => emitRingE cfg lab ground st (i : ℤ)) st).starts,
          x ≤ ((l.foldl (fun st (i : ℕ) => emitRingE cfg lab ground st (i : ℤ)) st).size : ℤ)
            - 1 + 5) ∧
      (List.Chain' (· ≤ ·)
          (l.foldl (fun st (i : ℕ) => emitRingE cfg lab ground st (i : ℤ)) st).ends ∧
        ∀ x ∈ (l.foldl (fun st (i : ℕ) => emitRingE cfg lab ground st (i : ℤ)) st).ends,
          x ≤ ((l.foldl (fun st (i : ℕ) => emitRingE cfg lab ground st (i : ℤ)) st).size : ℤ)
            - 1 - 5)) := by
  intro l
  induction l with
  | nil =>
    intro st h1 h2
    exact ⟨h1, h2⟩
  | cons i is ih =>
    intro st h1 h2
    rw [List.foldl_cons]
    set st1 := emitRingE cfg lab ground st (i : ℤ) with hst1
    have hsz : st.size ≤ st1.size := by rw [hst1]; exact emitRingE_size_ge cfg lab ground st _
    refine ih st1 ⟨?_, ?_⟩ ⟨?_, ?_⟩
    · rw [hst1, emitRingE_starts]
      rw [List.chain'_append]
      refine ⟨h1.1, List.chain'_singleton _, ?_⟩
      intro x hx y hy
      rw [List.head?_cons, Option.mem_some_iff] at hy
      subst hy
      have hxm : x ∈ st.starts := List.mem_of_mem_getLast? hx
      exact h1.2 x hxm
    · intro x hx
      rw [hst1, emitRingE_starts] at hx
      rcases List.mem_append.mp hx with hx | hx
      · have := h1.2 x hx
        omega
      · rw [List.mem_singleton.mp hx]
        omega
    · rw [hst1, emitRingE_ends]
      rw [List.chain'_append]
      refine ⟨h2.1, List.chain'_singleton _, ?_⟩
      intro x hx y hy
      rw [List.head?_cons, Option.mem_some_iff] at hy
      subst hy
      have hxm : x ∈ st.ends := List.mem_of_mem_getLast? hx
      have := h2.2 x hxm
      rw [← hst1]
      omega
    · intro x hx
      rw [hst1, emitRingE_ends] at hx
      rcases List.mem_append.mp hx with hx | hx
      · have := h2.2 x hx
        omega
      · rw [List.mem_singleton.mp hx]

theorem emit_fold_forall2 (cfg : IPConfig) (lab ground : Mat ℤ) :
    ∀ (l : List ℕ) (st : EmSt), st.starts.length = st.ends.length →
      List.Forall₂ (fun (p : ℤ × ℤ) (n : ℕ) => p.2 = p.1 + n - 10)
        (st.starts.zip st.ends) st.emitted →
      List.Forall₂ (fun (p : ℤ × ℤ) (n : ℕ) => p.2 = p.1 + n - 10)
        ((l.foldl (fun st (i : ℕ) => emitRingE cfg lab ground st (i : ℤ)) st).starts.zip
         (l.foldl (fun st (i : ℕ) => emitRingE cfg lab ground st (i : ℤ)) st).ends)
        (l.foldl (fun st (i : ℕ) => emitRingE cfg lab ground st (i : ℤ)) st).emitted := by
  intro l
  induction l with
  | nil => intro st _ h; exact h
  | cons i is ih =>
    intro st hlen hf
    rw [List.foldl_cons]
    set st1 := emitRingE cfg lab ground st (i : ℤ) with hst1
    have hsz : st.size ≤ st1.size := by rw [hst1]; exact emitRingE_size_ge cfg lab ground st _
    refine ih st1 ?_ ?_
    · rw [hst1, emitRingE_starts, emitRingE_ends]
      simp [hlen]
    · rw [hst1, emitRingE_starts, emitRingE_ends, emitRingE_emitted, ← hst1,
        List.zip_append (by simpa using hlen)]
      refine List.rel_append hf ?_
      refine List.forall₂_cons.mpr ⟨?_, List.Forall₂.nil⟩
      show ((st1.size : ℤ) - 1 - 5) = ((st.size : ℤ) - 1 + 5) + (st1.size - st.size : ℕ) - 10
      omega

/-- C3 (amended): the number of emitted segmented points satisfies
`Σ_i (endRingIndex[i] − startRingIndex[i] + 11) = |segmentedCloud| +
N_scan` — the spec's `+11` formula over-counts by exactly one per ring,
the exact identity uses `+10` — the start/end index sequences are
nondecreasing across rings, and each ring's window satisfies
`end = start + emitted − 10` (so `start ≤ end` iff the ring emitted at
least 10 points). -/
theorem c3_amended (cfg : IPConfig) (lab ground : Mat ℤ) :
    sumWindows (emitAllE cfg lab ground).starts (emitAllE cfg lab ground).ends =
      ((emitAllE cfg lab ground).size : ℤ) + cfg.nScan ∧
    List.Chain' (· ≤ ·) (emitAllE cfg lab ground).starts ∧
    List.Chain' (· ≤ ·) (emitAllE cfg lab ground).ends ∧
    List.Forall₂ (fun (p : ℤ × ℤ) (n : ℕ) => p.2 = p.1 + n - 10)
      ((emitAllE cfg lab ground).starts.zip (emitAllE cfg lab ground).ends)
      (emitAllE cfg lab ground).emitted := by
  have h1 := emit_fold_spec cfg lab ground (List.range cfg.nScan) ⟨0, [], [], [], 0⟩ rfl
  have h2 := emit_fold_chain cfg lab ground (List.range cfg.nScan) ⟨0, [], [], [], 0⟩
    ⟨List.chain'_nil, by intro x hx; exact absurd hx (List.not_mem_nil _)⟩
    ⟨List.chain'_nil, by intro x hx; exact absurd hx (List.not_mem_nil _)⟩
  have h3 := emit_fold_forall2 cfg lab ground (List.range cfg.nScan) ⟨0, [], [], [], 0⟩ rfl
    List.Forall₂.nil
  refine ⟨?_, h2.1.1, h2.2.1, h3⟩
  have := h1.2
  rw [show sumWindows (⟨0, [], [], [], 0⟩ : EmSt).starts (⟨0, [], [], [], 0⟩ : EmSt).ends =
    0 from rfl] at this
  rw [show ((⟨0, [], [], [], 0⟩ : EmSt) : EmSt).size = 0 from rfl] at this
  rw [List.length_range] at this
  show sumWindows (emitAllE cfg lab ground).starts (emitAllE cfg lab ground).ends = _
  rw [show emitAllE cfg lab ground = (List.range cfg.nScan).foldl
    (fun st (i : ℕ) => emitRingE cfg lab ground st (i : ℤ)) ⟨0, [], [], [], 0⟩ from rfl]
  omega

/-- C3 counterexample: a reachable scan — a single return closer than
the 0.1 m projection cutoff, leaving the range image empty — emits 0
points while `Σ_i (endRingIndex[i] − startRingIndex[i] + 11)` is 1
(one per ring), refuting the claimed equality. -/
theorem c3_counterexample :
    (cloudHandlerE oC3 cfgC3 [probePt]).map
      (fun o => ((o.em.size : ℤ), sumWindows o.em.starts o.em.ends)) = some (0, 1) ∧
    (0 : ℤ) ≠ 1 := by
  constructor
  · norm_num [cloudHandlerE, findStartEndAngleE, projectPointCloudE, projectOneE, truncQ,
      roundQ, wrapCol, resetParametersE, groundRemovalE, groundPairE, segLoopE, rowMajor,
      rowOf, emitAllE, emitRingE, emitCellE, sumWindows, mupd, oC3, cfgC3, probePt, fltMax,
      List.range_succ]
  · norm_num

/-- Projection writes only tags `row + col/10000 ≥ 0`; it never writes
the `-1` tag that `groundRemoval` tests for. -/
theorem projectOneE_intensity (O : RealOracles) (cfg : IPConfig) (st : IPState) (p : RawPt)
    (h : ∀ a b, 0 ≤ (st.fullCloud a b).intensity) :
    ∀ a b, 0 ≤ ((projectOneE O cfg st p).fullCloud a b).intensity := by
  intro a b
  simp only [projectOneE]
  split
  · exact h a b
  · next h1 =>
    split
    · exact h a b
    · next h2 =>
      split
      · exact h a b
      · dsimp only
        push_neg at h1 h2
        rcases mupd_cases st.fullCloud _ _ a b
          (⟨some (p.x, p.y, p.z), _⟩ : CellPt) with hm | hm
        · rw [hm]; exact h a b
        · rw [hm]
          have hr : (0 : ℚ) ≤ (truncQ ((O.asinQ (p.z / O.sqrtQ (p.x * p.x + p.y * p.y + p.z * p.z))
              + cfg.angBottom) / cfg.angResY) : ℚ) := by
            exact_mod_cast h1.1
          have hc : (0 : ℚ) ≤ (wrapCol cfg (truncQ (-(roundQ ((O.atan2Q p.x p.y - O.piQ / 2) /
              cfg.angResX) : ℚ) + (cfg.hScan : ℚ) * (1/2))) : ℚ) := by
            exact_mod_cast h2.1
          show 0 ≤ _ + _ / 10000
          have : (0 : ℚ) ≤ _ / 10000 := div_nonneg hc (by norm_num)
          exact add_nonneg hr this

theorem projectPointCloudE_intensity (O : RealOracles) (cfg : IPConfig) :
    ∀ (cloud : List RawPt) (st : IPState),
      (∀ a b, 0 ≤ (st.fullCloud a b).intensity) →
      ∀ a b, 0 ≤ ((projectPointCloudE O cfg st cloud).fullCloud a b).intensity := by
  intro cloud
  induction cloud with
  | nil => intro st h; exact h
  | cons p ps ih =>
    intro st h
    exact ih (projectOneE O cfg st p) (projectOneE_intensity O cfg st p h)

/-- `groundRemoval` on a state whose tags are never `-1` can only leave
a ground flag unchanged or set it to `1`. -/
theorem groundPairE_ground (O : RealOracles) (cfg : IPConfig) (st : IPState) (i j : ℤ)
    (h : ∀ a b, 0 ≤ (st.fullCloud a b).intensity) :
    ∀ a b, (groundPairE O cfg st i j).groundM a b = st.groundM a b ∨
      (groundPairE O cfg st i j).groundM a b = 1 := by
  intro a b
  simp only [groundPairE]
  split
  · next hcond =>
    exfalso
    rcases hcond with hc | hc
    · have := h i j; rw [hc] at this; norm_num at this
    · have := h (i + 1) j; rw [hc] at this; norm_num at this
  · split
    · dsimp only
      rcases mupd_cases (mupd st.groundM i j 1) (i + 1) j a b 1 with hm | hm
      · rcases mupd_cases st.groundM i j a b 1 with hm2 | hm2
        · exact Or.inl (hm.trans hm2)
        · exact Or.inr (hm.trans hm2)
      · exact Or.inr hm
    · exact Or.inl rfl

theorem groundRemovalE_ground (O : RealOracles) (cfg : IPConfig) (st : IPState)
    (h : ∀ a b, 0 ≤ (st.fullCloud a b).intensity) :
    ∀ a b, (groundRemovalE O cfg st).groundM a b = st.groundM a b ∨
      (groundRemovalE O cfg st).groundM a b = 1 := by
  have hinner : ∀ (l : List ℕ) (s : IPState) (j : ℕ), s.fullCloud = st.fullCloud →
      ((l.foldl (fun s' (i : ℕ) => groundPairE O cfg s' (i : ℤ) (j : ℤ)) s).fullCloud =
        st.fullCloud ∧
       ∀ a b, (l.foldl (fun s' (i : ℕ) => groundPairE O cfg s' (i : ℤ) (j : ℤ)) s).groundM a b =
          s.groundM a b ∨
        (l.foldl (fun s' (i : ℕ) => groundPairE O cfg s' (i : ℤ) (j : ℤ)) s).groundM a b = 1) := by
    intro l
    induction l with
    | nil => intro s j hfc; exact ⟨hfc, fun a b => Or.inl rfl⟩
    | cons i is ih =>
      intro s j hfc
      rw [List.foldl_cons]
      have hfc1 : (groundPairE O cfg s (i : ℤ) (j : ℤ)).fullCloud = st.fullCloud :=
        ((groundPairE_fields O cfg s _ _).2.2).trans hfc
      obtain ⟨h1, h2⟩ := ih (groundPairE O cfg s (i : ℤ) (j : ℤ)) j hfc1
      refine ⟨h1, fun a b => ?_⟩
      rcases h2 a b with hh | hh
      · rw [hh]
        exact groundPairE_ground O cfg s (i : ℤ) (j : ℤ) (fun a b => hfc ▸ h a b) a b
      · exact Or.inr hh
  have houter : ∀ (l : List ℕ) (s : IPState), s.fullCloud = st.fullCloud →
      ((l.foldl (fun s (j : ℕ) => (List.range cfg.gsi).foldl
          (fun s' (i : ℕ) => groundPairE O cfg s' (i : ℤ) (j : ℤ)) s) s).fullCloud =
        st.fullCloud ∧
       ∀ a b, (l.foldl (fun s (j : ℕ) => (List.range cfg.gsi).foldl
          (fun s' (i : ℕ) => groundPairE O cfg s' (i : ℤ) (j : ℤ)) s) s).groundM a b =
          s.groundM a b ∨
        (l.foldl (fun s (j : ℕ) => (List.range cfg.gsi).foldl
          (fun s' (i : ℕ) => groundPairE O cfg s' (i : ℤ) (j : ℤ)) s) s).groundM a b = 1) := by
    intro l
    induction l with
    | nil => intro s hfc; exact ⟨hfc, fun a b => Or.inl rfl⟩
    | cons j js ih =>
      intro s hfc
      rw [List.foldl_cons]
      obtain ⟨g1, g2⟩ := hinner (List.range cfg.gsi) s j hfc
      obtain ⟨h1, h2⟩ := ih _ g1
      refine ⟨h1, fun a b => ?_⟩
      rcases h2 a b with hh | hh
      · rw [hh]
        exact g2 a b
      · exact Or.inr hh
  intro a b
  exact (houter (List.range cfg.hScan) st rfl).2 a b

/-- C4: the tri-state value `-1` ("no valid information") is *never*
written into `_ground_mat`.  `resetParameters` leaves the NaN point's
`intensity` at the PCL default `0` (the upstream LeGO-LOAM sets it to
`-1`; this port does not), and projection writes only nonnegative tags,
so the `intensity == -1` test of `groundRemoval` never fires; absent
cells fall through to the NaN angle test, which is `false`, leaving
`ground_mat = 0`.  The concrete scan exhibits the divergence: cells
`(0,0)` and `(1,0)` form a pair whose lower cell has no return, yet
`ground_mat(0,0) = 0`, not `-1` as the claim requires. -/
theorem c4_ground_never_invalid :
    (∀ (O : RealOracles) (cfg : IPConfig) (cloud : List RawPt) (a b : ℤ),
      (groundRemovalE O cfg (projectPointCloudE O cfg resetParametersE cloud)).groundM a b
        ≠ -1) ∧
    ((groundRemovalE oC4 cfgC4 (projectPointCloudE oC4 cfgC4 resetParametersE
        [probePtC4])).fullCloud 0 0).coords = none ∧
    (groundRemovalE oC4 cfgC4 (projectPointCloudE oC4 cfgC4 resetParametersE
        [probePtC4])).groundM 0 0 = 0 := by
  refine ⟨?_, ?_, ?_⟩
  · intro O cfg cloud a b
    have hint : ∀ a b, 0 ≤ ((projectPointCloudE O cfg resetParametersE cloud).fullCloud a b).intensity :=
      projectPointCloudE_intensity O cfg cloud resetParametersE (fun _ _ => le_refl 0)
    rcases groundRemovalE_ground O cfg _ hint a b with h | h
    · rw [h, (projectPointCloudE_fields O cfg cloud resetParametersE).2]
      norm_num [resetParametersE]
    · rw [h]; norm_num
  · norm_num [groundRemovalE, groundPairE, groundAngleTestE, projectPointCloudE, projectOneE,
      resetParametersE, truncQ, roundQ, wrapCol, mupd, oC4, cfgC4, probePtC4, fltMax,
      List.range_succ]
  · norm_num [groundRemovalE, groundPairE, groundAngleTestE, projectPointCloudE, projectOneE,
      resetParametersE, truncQ, roundQ, wrapCol, mupd, oC4, cfgC4, probePtC4, fltMax,
      List.range_succ]

/-- C1: `Eigen::SelfAdjointEigenSolver` returns eigenvalues in
*ascending* order, but the degeneracy scan walks `i = 2, 1, 0` and
`break`s at the first eigenvalue `≥ 10` — i.e. it inspects the
*largest* eigenvalue first.  With the ascending spectrum `(1, 5, 100)`
the scan sees `100 ≥ 10`, breaks immediately and reports
`isDegenerate = false`, although the minimum eigenvalue is `1 < 10`.
The claim "not degenerate ⟹ min eigenvalue ≥ 10" is false of the code. -/
theorem c1_degeneracy_scan_misses_min :
    (degenScan3 eigC1).1 = false ∧
    eigC1 0 < 10 ∧ eigC1 0 ≤ eigC1 1 ∧ eigC1 1 ≤ eigC1 2 := by
  refine ⟨?_, ?_, ?_, ?_⟩ <;> norm_num [degenScan3, degenGo, eigC1]

/-- C2: `matP` is a *local* variable of `calculateTransformationSurf`
(line 1089) and `...Corner` (line 1214); the projection computed at
`iterCount = 0` dies with the call, and on `iterCount ≥ 1` the branch
`matX2 = matP * matX2` multiplies by a freshly default-constructed —
uninitialized — matrix.  Concretely: with the same spectrum, the same
degenerate flag and the same least-squares solution `e₀`, the applied
update is `0` if the uninitialized storage happens to hold the zero
matrix and `e₀` if it holds the identity, so the update is *not* the
well-defined `V⁻¹·V2` of iteration 0. -/
theorem c2_matP_uninitialized :
    (calcApplyDegenE eigC1 junkP1 junkP0 1 true e0V3).1 0 = 0 ∧
    (calcApplyDegenE eigC1 junkP1 junkP1 1 true e0V3).1 0 = 1 ∧
    (0 : ℚ) ≠ 1 := by
  refine ⟨?_, ?_, by norm_num⟩ <;>
    norm_num [calcApplyDegenE, mat3MulVec, junkP0, junkP1, e0V3, Fin.sum_univ_three]

/-- `updateInitialGuess` writes only the IMU `Last`/`FromStart` slots
and `transformCur`. -/
theorem updateInitialGuessE_nums (p : ℚ) (s : FAState) :
    (updateInitialGuessE p s).cornerLastNum = s.cornerLastNum ∧
    (updateInitialGuessE p s).surfLastNum = s.surfLastNum := by
  constructor <;> (simp only [updateInitialGuessE]; split <;> split <;> rfl)

theorem updateInitialGuessE_sum (p : ℚ) (s : FAState) :
    (updateInitialGuessE p s).transformSum = s.transformSum := by
  simp only [updateInitialGuessE]; split <;> split <;> rfl

/-- The solver loop of `updateTransformation` touches only
`transformCur` and `isDegenerate`. -/
theorem solveLoopE_sum (nRes : ℕ → ℕ) (cal : CalcOracle) (st : FAState) :
    (solveLoopE nRes cal st).transformSum = st.transformSum := by
  suffices h : ∀ (l : List ℕ) (p : FAState × Bool),
      ((l.foldl
        (fun p it =>
          if p.2 then p
          else if nRes it < 10 then (p.1, false)
          else
            let r := cal it p.1.transformCur p.1.isDeg
            ({ p.1 with transformCur := r.1.1, isDeg := r.1.2 }, r.2 = false))
        p).1.transformSum = p.1.transformSum) from
    h (List.range 25) (st, false)
  intro l
  induction l with
  | nil => intro p; rfl
  | cons i is ih =>
    intro p
    rw [List.foldl_cons, ih]
    dsimp only
    split
    · rfl
    · split
      · rfl
      · rfl

/-- C7 (amended): on a sparse scan (fewer than 10 corner-last or 100
surf-last points) `updateTransformation` returns early, so it is the
identity on the state; the cycle then still runs
`integrateTransformation`, `publishOdometry` and `publishCloudsLast`.
The increment folded into `transformSum` and published is therefore the
*leftover* `transformCur` — whatever `updateInitialGuess` seeded from
the IMU, or the previous scan's solution — not the identity increment
the claim asserts. -/
theorem c7_amended (O : RealOracles) (p : ℚ) (nS : ℕ → ℕ) (cS : CalcOracle)
    (nC : ℕ → ℕ) (cC : CalcOracle) (s : FAState)
    (h1 : s.inited = true) (h2 : s.cornerLastNum < 10 ∨ s.surfLastNum < 100) :
    updateTransformationE nS cS nC cC (updateInitialGuessE p s) = updateInitialGuessE p s ∧
    scanMotionE O p nS cS nC cC s =
      publishCloudsLastE (publishOdometryE
        (integrateTransformationE O (updateInitialGuessE p s))) := by
  have hn := updateInitialGuessE_nums p s
  have hu : updateTransformationE nS cS nC cC (updateInitialGuessE p s) =
      updateInitialGuessE p s := by
    simp only [updateTransformationE]
    rw [if_pos]
    rcases h2 with h | h
    · exact Or.inl (by rw [hn.1]; exact h)
    · exact Or.inr (by rw [hn.2]; exact h)
  refine ⟨hu, ?_⟩
  simp only [scanMotionE]
  rw [if_neg (by rw [h1]; simp), hu]

theorem c7_amended_witness :
    updateTransformationE nZero calcId nZero calcId (updateInitialGuessE (1/10) s7) =
      updateInitialGuessE (1/10) s7 :=
  (c7_amended ozOracle (1/10) nZero calcId nZero calcId s7 rfl
    (Or.inl (by norm_num [s7]))).1

/-- C7 (counterexample to the published-identity part): `s7` is sparse
(5 corner-last points) and starts at the origin, yet the scan publishes
the position `(-1/2, 0, 0)`: the leftover `transformCur[3] = 1/2` is
integrated and published, not an identity increment. -/
theorem c7_counterexample :
    s7.cornerLastNum < 10 ∧
    s7.transformSum 3 = 0 ∧ s7.transformSum 4 = 0 ∧ s7.transformSum 5 = 0 ∧
    (scanMotionE ozOracle (1/10) nZero calcId nZero calcId s7).odomLog =
      [(-(1/2), 0, 0)] ∧
    (-(1/2) : ℚ) ≠ 0 := by
  refine ⟨by norm_num [s7], by norm_num [s7], by norm_num [s7], by norm_num [s7], ?_,
    by norm_num⟩
  norm_num [scanMotionE, publishCloudsLastE, publishOdometryE, integrateTransformationE,
    updateTransformationE, updateInitialGuessE, solveLoopE, AccumulateRotationE,
    PluginIMURotationE, ozOracle, nZero, calcId, s7, List.range_succ]

/-- C8 (amended): on every scan *after* initialization the cycle
mutates `transformSum` exactly once, in `integrateTransformation` —
`updateInitialGuess`, both solver loops of `updateTransformation`,
`publishOdometry` and `publishCloudsLast` all preserve it.  But on the
very first scan, `checkSystemInitialization` *also* writes
`transformSum`: components 0 and 2 are seeded with `imuPitchStart` and
`imuRollStart`, so "no other operation (including first-scan
initialization) writes any component" is false of the code. -/
theorem c8_amended (O : RealOracles) (p : ℚ) (nS : ℕ → ℕ) (cS : CalcOracle)
    (nC : ℕ → ℕ) (cC : CalcOracle) (s t : FAState)
    (hs : s.inited = false) (ht : t.inited = true) :
    ((scanMotionE O p nS cS nC cC s).transformSum = fun i =>
        if i = 0 then s.transformSum 0 + s.imuPitchStart
        else if i = 2 then s.transformSum 2 + s.imuRollStart
        else s.transformSum i) ∧
    (scanMotionE O p nS cS nC cC t).transformSum =
      (integrateTransformationE O
        (updateTransformationE nS cS nC cC (updateInitialGuessE p t))).transformSum ∧
    (updateTransformationE nS cS nC cC (updateInitialGuessE p t)).transformSum =
      t.transformSum := by
  refine ⟨?_, ?_, ?_⟩
  · simp only [scanMotionE]
    rw [if_pos hs]
    rfl
  · simp only [scanMotionE]
    rw [if_neg (by rw [ht]; simp)]
    rfl
  · simp only [updateTransformationE]
    split
    · exact updateInitialGuessE_sum p t
    · rw [solveLoopE_sum, solveLoopE_sum, updateInitialGuessE_sum]

theorem c8_amended_witness :
    (scanMotionE ozOracle (1/10) nZero calcId nZero calcId s8i).transformSum =
      (integrateTransformationE ozOracle
        (updateTransformationE nZero calcId nZero calcId
          (updateInitialGuessE (1/10) s8i))).transformSum :=
  (c8_amended ozOracle (1/10) nZero calcId nZero calcId s8 s8i rfl rfl).2.1

/-- C8 (counterexample): on the first scan `s8` (`transformSum = 0`,
`imuPitchStart = 1`), `integrateTransformation` never runs, yet
`transformSum[0]` ends up `1`: `checkSystemInitialization` wrote it. -/
theorem c8_counterexample :
    s8.inited = false ∧ s8.transformSum 0 = 0 ∧ s8.imuPitchStart = 1 ∧
    (scanMotionE ozOracle (1/10) nZero calcId nZero calcId s8).transformSum 0 = 1 ∧
    (0 : ℚ) ≠ 1 := by
  refine ⟨rfl, by norm_num [s8, s7], by norm_num [s8, s7], ?_, by norm_num⟩
  norm_num [scanMotionE, checkSystemInitializationE, s8, s7]

theorem setP_self (p : ℕ → Bool) (k : ℕ) : setP p k k = true := by
  unfold setP; simp

theorem setP_mono (p : ℕ → Bool) (k i : ℕ) (h : p i = true) : setP p k i = true := by
  unfold setP
  split
  · rfl
  · exact h

theorem setL_self (lb : ℕ → ℤ) (k : ℕ) (v : ℤ) : setL lb k v k = v := by
  unfold setL; simp

theorem setL_ne (lb : ℕ → ℤ) (k : ℕ) (v : ℤ) (i : ℕ) (h : i ≠ k) : setL lb k v i = lb i := by
  unfold setL
  rw [if_neg h]

/-- Neighbor suppression never clears a picked flag. -/
theorem markFwd_mono (ctx : FeatCtx) (ind i : ℕ) :
    ∀ (l : List ℕ) (p : ℕ → Bool), p i = true → markFwd ctx ind l p i = true := by
  intro l
  induction l with
  | nil => intro p h; exact h
  | cons a rest ih =>
    intro p h
    simp only [markFwd]
    split
    · exact ih p h
    · split
      · exact h
      · exact ih _ (setP_mono p _ i h)

theorem markBwd_mono (ctx : FeatCtx) (ind i : ℕ) :
    ∀ (l : List ℕ) (p : ℕ → Bool), p i = true → markBwd ctx ind l p i = true := by
  intro l
  induction l with
  | nil => intro p h; exact h
  | cons a rest ih =>
    intro p h
    simp only [markBwd]
    split
    · exact ih p h
    · split
      · exact h
      · exact ih _ (setP_mono p _ i h)

theorem markPickedE_mono (ctx : FeatCtx) (p : ℕ → Bool) (ind i : ℕ) (h : p i = true) :
    markPickedE ctx p ind i = true :=
  markBwd_mono ctx ind i _ _ (markFwd_mono ctx ind i _ _ (setP_mono p ind i h))

theorem markPickedE_self (ctx : FeatCtx) (p : ℕ → Bool) (ind : ℕ) :
    markPickedE ctx p ind ind = true :=
  markBwd_mono ctx ind ind _ _ (markFwd_mono ctx ind ind _ _ (setP_self p ind))

/-- The corner walk preserves `CornerInv` along any candidate list. -/
theorem cornerWalkE_inv (ctx : FeatCtx) :
    ∀ (l : List ℕ) (s : CornerSt), CornerInv s → CornerInv (cornerWalkE ctx l s) := by
  intro l
  induction l with
  | nil => intro s h; exact h
  | cons ind rest ih =>
    intro s hinv
    obtain ⟨h20, hlen, hsh, hpk, hl2, hl1⟩ := hinv
    simp only [cornerWalkE]
    split
    · next hg =>
      have hine : ∀ i, s.picked i = true → i ≠ ind := by
        intro i hpi he
        rw [he, hg.1] at hpi
        exact Bool.false_ne_true hpi
      have hsub : ∀ i ∈ s.sharp, i ∈ s.less := by
        intro i hi
        rw [hsh] at hi
        exact List.take_subset 2 s.less hi
      split
      · next hA =>
        apply ih
        refine ⟨?_, ?_, ?_, ?_, ?_, ?_⟩ <;> dsimp only
        · omega
        · simp [hlen]
        · rw [hsh, List.take_of_length_le (show s.less.length ≤ 2 by omega),
            List.take_of_length_le
              (show (s.less ++ [ind]).length ≤ 2 by
                simp only [List.length_append, List.length_singleton, hlen]; omega)]
        · intro i hi
          rcases List.mem_append.mp hi with hi | hi
          · exact markPickedE_mono ctx s.picked ind i (hpk i hi)
          · rw [List.mem_singleton.mp hi]
            exact markPickedE_self ctx s.picked ind
        · intro i hi
          rcases List.mem_append.mp hi with hi | hi
          · rw [setL_ne s.lab ind 2 i (hine i (hpk i (hsub i hi)))]
            exact hl2 i hi
          · rw [List.mem_singleton.mp hi]
            exact setL_self s.lab ind 2
        · intro i hi
          rw [List.drop_eq_nil_of_le
            (show (s.less ++ [ind]).length ≤ 2 by
              simp only [List.length_append, List.length_singleton, hlen]; omega)] at hi
          simp at hi
      · next hA =>
        split
        · next hB =>
          apply ih
          have h2 : 2 ≤ s.less.length := by omega
          refine ⟨?_, ?_, ?_, ?_, ?_, ?_⟩ <;> dsimp only
          · omega
          · simp [hlen]
          · rw [List.take_append_of_le_length h2]
            exact hsh
          · intro i hi
            rcases List.mem_append.mp hi with hi | hi
            · exact markPickedE_mono ctx s.picked ind i (hpk i hi)
            · rw [List.mem_singleton.mp hi]
              exact markPickedE_self ctx s.picked ind
          · intro i hi
            rw [setL_ne s.lab ind 1 i (hine i (hpk i (hsub i hi)))]
            exact hl2 i hi
          · intro i hi
            rw [List.drop_append_of_le_length h2] at hi
            rcases List.mem_append.mp hi with hi | hi
            · rw [setL_ne s.lab ind 1 i (hine i (hpk i (List.drop_subset 2 s.less hi)))]
              exact hl1 i hi
            · rw [List.mem_singleton.mp hi]
              exact setL_self s.lab ind 1
        · exact ⟨h20, hlen, hsh, hpk, hl2, hl1⟩
    · exact ih s ⟨h20, hlen, hsh, hpk, hl2, hl1⟩

/-- The surface walk pushes at most once past the cap 3 before its
`break`. -/
theorem surfWalkE_inv (ctx : FeatCtx) :
    ∀ (l : List ℕ) (s : SurfSt), s.flat.length = s.n → s.n ≤ 3 →
      (surfWalkE ctx l s).flat.length = (surfWalkE ctx l s).n ∧
      (surfWalkE ctx l s).n ≤ 4 := by
  intro l
  induction l with
  | nil =>
    intro s h1 h2
    simp only [surfWalkE]
    exact ⟨h1, by omega⟩
  | cons ind rest ih =>
    intro s h1 h2
    simp only [surfWalkE]
    split
    · split
      · next hbig =>
        refine ⟨?_, ?_⟩
        · simp [h1]
        · show s.n + 1 ≤ 4
          omega
      · next hsmall =>
        exact ih _ (by simp [h1]) (by show s.n + 1 ≤ 3; omega)
    · exact ih s h1 h2

/-- C9: from a fresh sector state, the corner walk emits at most 2
sharp points and at most 20 less-sharp points, the sharp ones being
exactly the first 2 of the less-sharp trace with final label 2 while
the remaining less-sharp points carry final label 1; and the surface
walk emits at most 4 flat points — for every candidate order, every
curvature/ground/column configuration and every incoming picked/label
state. -/
theorem c9_sector_feature_caps (ctx : FeatCtx) (lC lS : List ℕ)
    (picked pickedS : ℕ → Bool) (lab labS : ℕ → ℤ) :
    (cornerWalkE ctx lC (cornerStart picked lab)).sharp.length ≤ 2 ∧
    (cornerWalkE ctx lC (cornerStart picked lab)).less.length ≤ 20 ∧
    (cornerWalkE ctx lC (cornerStart picked lab)).sharp =
      (cornerWalkE ctx lC (cornerStart picked lab)).less.take 2 ∧
    (∀ i ∈ (cornerWalkE ctx lC (cornerStart picked lab)).sharp,
      (cornerWalkE ctx lC (cornerStart picked lab)).lab i = 2) ∧
    (∀ i ∈ (cornerWalkE ctx lC (cornerStart picked lab)).less.drop 2,
      (cornerWalkE ctx lC (cornerStart picked lab)).lab i = 1) ∧
    (surfWalkE ctx lS (surfStart pickedS labS)).flat.length ≤ 4 := by
  have hc : CornerInv (cornerWalkE ctx lC (cornerStart picked lab)) := by
    apply cornerWalkE_inv
    refine ⟨by norm_num [cornerStart], rfl, rfl, ?_, ?_, ?_⟩ <;>
      intro i hi <;> simp [cornerStart] at hi
  obtain ⟨h20, hlen, hsh, _, hl2, hl1⟩ := hc
  have hs := surfWalkE_inv ctx lS (surfStart pickedS labS) rfl (by norm_num [surfStart])
  refine ⟨?_, by omega, hsh, hl2, hl1, ?_⟩
  · rw [hsh, List.length_take]
    omega
  · omega

/-- A cloud that is nonempty after NaN removal always yields defined
start/end orientations. -/
theorem findStartEndAngleE_isSome (O : RealOracles) (cl : List RawPt) (hcl : cl ≠ []) :
    (findStartEndAngleE O cl).isSome = true := by
  cases cl with
  | nil => exact absurd rfl hcl
  | cons a l =>
    simp only [findStartEndAngleE, List.head?_cons,
      List.getLast?_eq_getLast (a :: l) (by simp)]
    rfl

/-- C10: `cloudHandler` calls `findStartEndAngle` unconditionally, and
`findStartEndAngle` reads `cloud->front()` and `cloud->back()` with no
emptiness guard.  In the embedding that access is `none` exactly on the
empty cloud: a scan that is empty after NaN removal makes the whole
handler undefined, a scan that is nonempty lets it run to completion —
the non-emptiness precondition is required and nowhere guarded. -/
theorem c10_empty_cloud_unguarded :
    (∀ (O : RealOracles) (cfg : IPConfig) (raw : List RawPt),
      raw.filter (fun p => p.finite) = [] → cloudHandlerE O cfg raw = none) ∧
    (∀ (O : RealOracles) (cfg : IPConfig) (raw : List RawPt),
      raw.filter (fun p => p.finite) ≠ [] → (cloudHandlerE O cfg raw).isSome = true) ∧
    cloudHandlerE oC3 cfgC3 [] = none := by
  refine ⟨?_, ?_, rfl⟩
  · intro O cfg raw h
    simp only [cloudHandlerE, h]
    rfl
  · intro O cfg raw h
    simp only [cloudHandlerE]
    have hk := findStartEndAngleE_isSome O (raw.filter fun p => p.finite) h
    cases hfs : findStartEndAngleE O (raw.filter fun p => p.finite) with
    | none => rw [hfs] at hk; simp at hk
    | some v => simp

theorem c10_empty_cloud_unguarded_witness :
    (cloudHandlerE oC3 cfgC3 [probePt]).isSome = true :=
  c10_empty_cloud_unguarded.2.1 oC3 cfgC3 [probePt] (by simp [probePt])

end LegoLoam
